import Mathlib

/-!
Verification of the Tangles rich-text document engine (src/rich_editor.rs).

The development shallowly embeds the engine in Lean:
the GTK text buffer becomes a flat character list plus a table of named
tag ranges (a tag named n covering the half-open offset interval [s, e)),
and each Rust function of the engine becomes a Lean function over that
state.  Machine integers of the source (i32 offsets, byte lengths) are
modelled by Nat/Int; all offsets are character offsets, as in the source,
which manipulates GTK iterators by character.
-/

-- ── Characters and strings ─────────────────────────────────────────

/-- Character list of a string literal (GTK offsets count characters). -/
def chars (s : String) : List Char := s.toList

/-- Object-replacement character used by GTK for child anchors
(the ORC constant of the source). -/
def ORC : Char := Char.ofNat 0xFFFC

/-- Alphanumeric test used by the auto-link scanner
(Rust char::is_alphanumeric; the model uses the ASCII test, which agrees
with it on all ASCII text). -/
def isAlnumChar (c : Char) : Bool := c.isAlphanum

/-- Whitespace test (Rust char::is_whitespace; agrees on ASCII). -/
def isWsChar (c : Char) : Bool := c.isWhitespace

-- ── Buffer model ───────────────────────────────────────────────────

/-- Model of the GtkTextBuffer: flat character list, a table of tag
ranges (name, start offset, end offset — covering [start, end)), and the
offset of the insert mark (the cursor). -/
structure Buffer where
  text : List Char
  tags : List (String × Nat × Nat)
  cursor : Nat
deriving Repr, DecidableEq

/-- Tag coverage: does a tag named n cover character offset i. -/
def Buffer.covers (b : Buffer) (n : String) (i : Nat) : Bool :=
  b.tags.any (fun t => t.1 == n && t.2.1 ≤ i && i < t.2.2)

/-- Names of all tags covering offset i (with duplicates, in table order). -/
def Buffer.namesAt (b : Buffer) (i : Nat) : List String :=
  (b.tags.filter (fun t => t.2.1 ≤ i && i < t.2.2)).map (fun t => t.1)

/-- Model of buffer.apply_tag over the offset range [s, e). -/
def Buffer.applyTag (b : Buffer) (n : String) (s e : Nat) : Buffer :=
  { b with tags := b.tags ++ [(n, s, e)] }

/-- Model of buffer.remove_tag over [s, e): every range of the named tag
has the interval [s, e) subtracted from it. -/
def Buffer.removeTag (b : Buffer) (n : String) (s e : Nat) : Buffer :=
  { b with tags := b.tags.flatMap (fun t =>
      if t.1 == n then
        ((if t.2.1 < min t.2.2 s then [(t.1, t.2.1, min t.2.2 s)] else []) ++
         (if max t.2.1 e < t.2.2 then [(t.1, max t.2.1 e, t.2.2)] else []))
      else [t]) }

/-- Model of buffer.insert at offset p.  Tag toggles shift with the text:
a range strictly containing p grows, a range at or after p shifts right,
matching GTK (text inserted at a tag boundary does not take the tag).
The insert mark has right gravity, so a cursor at or after p shifts. -/
def Buffer.insertAt (b : Buffer) (p : Nat) (cs : List Char) : Buffer :=
  let k := cs.length
  { text := b.text.take p ++ cs ++ b.text.drop p
    tags := b.tags.map (fun t =>
      (t.1, if p ≤ t.2.1 then t.2.1 + k else t.2.1,
            if p < t.2.2 then t.2.2 + k else t.2.2))
    cursor := if p ≤ b.cursor then b.cursor + k else b.cursor }

/-- Model of buffer.delete over [s, e): text removed, tag toggles and
marks inside the deleted span collapse onto s, later ones shift left. -/
def Buffer.deleteRange (b : Buffer) (s e : Nat) : Buffer :=
  let k := e - s
  let adj : Nat → Nat := fun x => if x ≤ s then x else if x ≤ e then s else x - k
  { text := b.text.take s ++ b.text.drop e
    tags := (b.tags.map (fun t => (t.1, adj t.2.1, adj t.2.2))).filter
      (fun t => t.2.1 < t.2.2)
    cursor := adj b.cursor }

-- ── Lines ──────────────────────────────────────────────────────────

/-- Number of lines of a text (count of newline characters plus one),
as GtkTextBuffer.line_count. -/
def lineCount (text : List Char) : Nat :=
  (text.filter (fun c => c == '\n')).length + 1

/-- Line number containing character offset i (count of newlines before i). -/
def lineOf (text : List Char) (i : Nat) : Nat :=
  ((text.take i).filter (fun c => c == '\n')).length

/-- Helper for lineStartOff: scan for the start of the l-th further line. -/
def lineStartGo : List Char → Nat → Nat → Option Nat
  | _, 0, acc => some acc
  | [], _ + 1, _ => none
  | c :: rest, l + 1, acc =>
    if c == '\n' then lineStartGo rest l (acc + 1) else lineStartGo rest (l + 1) (acc + 1)

/-- Start offset of line l, if that line exists
(model of buffer.iter_at_line, which yields None past the last line). -/
def lineStartOff (text : List Char) (l : Nat) : Option Nat :=
  lineStartGo text l 0

/-- End offset of the line starting at ls: the offset of the next newline
or of the buffer end (iterator forward_to_line_end). -/
def lineEndOff (text : List Char) (ls : Nat) : Nat :=
  ls + ((text.drop ls).takeWhile (fun c => c != '\n')).length

/-- Characters of the range [s, e) (model of buffer.text(start, end)). -/
def sliceText (text : List Char) (s e : Nat) : List Char :=
  (text.drop s).take (e - s)

/-- Model of has_tag_in_range: some offset in [s, e) carries the tag. -/
def Buffer.hasTagInRange (b : Buffer) (n : String) (s e : Nat) : Bool :=
  (List.range' s (e - s)).any (fun i => b.covers n i)

-- ── List prefixes ──────────────────────────────────────────────────

/-- Literal bullet marker text, two spaces, bullet, space. -/
def bulletMark : List Char := chars "  • "

/-- Index of the first occurrence of the two-character pattern dot-space
(Rust str::find applied to the pattern). -/
def findDotSpace : List Char → Option Nat
  | [] => none
  | [_] => none
  | c1 :: c2 :: rest =>
    if c1 == '.' && c2 == ' ' then some 0
    else (findDotSpace (c2 :: rest)).map (· + 1)

/-- Model of count_list_prefix_chars: character length of the recognized
list marker at the start of a line, 0 if none. -/
def countListMarkChars (lineText : List Char) : Nat :=
  if bulletMark.isPrefixOf lineText then 4
  else
    let trimmed := lineText.dropWhile isWsChar
    let leading := lineText.length - trimmed.length
    match findDotSpace trimmed with
    | some d =>
      if (trimmed.take d).all (fun c => c.isDigit) && decide (d ≤ 4) then leading + d + 2
      else 0
    | none => 0

/-- Model of strip_list_prefix: remove a leading bullet or numbered
marker from a text segment before serialization. -/
def stripListMark (text : List Char) : List Char :=
  if bulletMark.isPrefixOf text then text.drop 4
  else if (chars "  ").isPrefixOf text then
    let trimmed := text.dropWhile isWsChar
    match findDotSpace trimmed with
    | some d =>
      if (trimmed.take d).all (fun c => c.isDigit) && decide (d ≤ 4) then trimmed.drop (d + 2)
      else text
    | none => text
  else text

-- ── Headings ───────────────────────────────────────────────────────

/-- Heading tag family, in the priority order the source checks. -/
def headingNames : List String := ["h1", "h2", "h3", "h4"]

/-- Model of apply_heading: on the cursor line, remember whether the
requested heading is already present, remove every heading tag from the
line, then apply the requested one unless it was present (toggle). -/
def applyHeading (b : Buffer) (tagName : String) : Buffer :=
  let line := lineOf b.text b.cursor
  let ls := (lineStartOff b.text line).getD b.cursor
  let le := lineEndOff b.text ls
  let alreadyHas := b.hasTagInRange tagName ls le
  let b1 := headingNames.foldl (fun acc ht => acc.removeTag ht ls le) b
  if alreadyHas then b1 else b1.applyTag tagName ls le

-- ── Lists: toggle and Enter key ────────────────────────────────────

/-- Model of toggle_list on the cursor line.  With the tag present the tag
and its marker text are removed; otherwise the opposite list kind is
cleared first, the literal marker is inserted at line start and the whole
line is tagged. -/
def toggleList (b : Buffer) (listTagName : String) : Buffer :=
  let line := lineOf b.text b.cursor
  let ls := (lineStartOff b.text line).getD b.cursor
  let le := lineEndOff b.text ls
  if b.hasTagInRange listTagName ls le then
    let b1 := b.removeTag listTagName ls le
    let lineText := sliceText b1.text ls le
    let pc := countListMarkChars lineText
    if pc > 0 then b1.deleteRange ls (ls + pc) else b1
  else
    let other := if listTagName == "bullet-list" then "numbered-list" else "bullet-list"
    let b1 :=
      if b.hasTagInRange other ls le then
        let b2 := b.removeTag other ls le
        let lineText := sliceText b2.text ls le
        let pc := countListMarkChars lineText
        if pc > 0 then b2.deleteRange ls (ls + pc) else b2
      else b
    let mark := if listTagName == "bullet-list" then bulletMark else chars "  1. "
    let b2 := b1.insertAt ls mark
    let ls2 := (lineStartOff b2.text line).getD 0
    let le2 := lineEndOff b2.text ls2
    b2.applyTag listTagName ls2 le2

/-- Both-end whitespace trim (Rust str::trim). -/
def trimChars (s : List Char) : List Char :=
  ((s.dropWhile isWsChar).reverse.dropWhile isWsChar).reverse

/-- Digit run to number. -/
def digitsToNat (ds : List Char) : Nat :=
  ds.foldl (fun acc c => acc * 10 + (c.toNat - '0'.toNat)) 0

/-- Helper for parseI32: digits with an already-parsed sign. -/
def parseI32Core (ds : List Char) (neg : Bool) : Option Int :=
  if ds ≠ [] ∧ ds.all (fun c => c.isDigit) then
    let v : Int := Int.ofNat (digitsToNat ds)
    let v := if neg then -v else v
    if -2147483648 ≤ v ∧ v ≤ 2147483647 then some v else none
  else none

/-- Model of Rust str::parse::<i32>: optional sign, nonempty digit run,
value within the i32 range. -/
def parseI32 (s : List Char) : Option Int :=
  match s with
  | c :: rest =>
    if c == '+' then parseI32Core rest false
    else if c == '-' then parseI32Core rest true
    else parseI32Core s false
  | [] => none

/-- Substring test of the scanner: the title characters appear at index i. -/
def matchesAt (cs tc : List Char) (i : Nat) : Bool :=
  (cs.drop i).take tc.length == tc

/-- Word-boundary test of the scanner: the characters immediately before
and after the candidate range are absent or not alphanumeric. -/
def boundaryOk (cs tc : List Char) (i : Nat) : Bool :=
  (i == 0 || !(isAlnumChar (cs.getD (i - 1) ' '))) &&
  (i + tc.length ≥ cs.length || !(isAlnumChar (cs.getD (i + tc.length) ' ')))

/-- Fuel-driven loop body of the per-title sweep.  The fuel only bounds
the iteration count; the caller passes enough for the loop to end on its
own guard. -/
def sweepTitleGo (cs tc : List Char) : Nat → Nat → List Nat
  | 0, _ => []
  | fuel + 1, i =>
    if i + tc.length ≤ cs.length then
      if matchesAt cs tc i then
        if boundaryOk cs tc i then i :: sweepTitleGo cs tc fuel (i + tc.length)
        else sweepTitleGo cs tc fuel (i + tc.length)
      else sweepTitleGo cs tc fuel (i + 1)
    else []

/-- Sweep of one title over the text, from index i: on a substring match
the index is recorded when the word boundaries hold, and the scan jumps
past the matched length; otherwise it advances by one.  The caller
guarantees a nonempty title; the empty case yields nothing, matching the
guard in the scanner loop. -/
def sweepTitle (cs tc : List Char) (i : Nat) : List Nat :=
  if tc.length = 0 then [] else sweepTitleGo cs tc (cs.length + 1 - i) i

/-- Stable insertion of a title into a list sorted by descending UTF-8
byte length. -/
def insertByLen (x : String) : List String → List String
  | [] => [x]
  | y :: ys => if y.utf8ByteSize ≤ x.utf8ByteSize then x :: y :: ys else y :: insertByLen x ys

/-- Stable sort by descending UTF-8 byte length.  Models the Rust stable
sort_by with the comparator b.len().cmp(&a.len()); a stable insertion
sort is used because stability and the comparator determine the result. -/
def sortByByteLenDesc (ts : List String) : List String := ts.foldr insertByLen []

/-- Model of the background scan of auto_link_note_titles: titles sorted
longest-first, self title, empty titles and the placeholder title
skipped, every remaining title swept over the full text. -/
def autoLinkScan (fullText : String) (titles : List String) (own : String) : List (Nat × String) :=
  let cs := chars fullText
  let sorted := sortByByteLenDesc titles
  sorted.foldl (fun acc title =>
    if title == own || title == "" || title == "New Note" then acc
    else
      let tc := chars title
      if tc.length == 0 || tc.length > cs.length then acc
      else acc ++ (sweepTitle cs tc 0).map (fun i => (i, title))) []

/-- Test whether one string starts with another, computed on character
lists (Rust str::starts_with). -/
def strStarts (pre s : String) : Bool :=
  (chars pre).isPrefixOf (chars s)

/-- Tangle-family test made by the main-thread application loop at the
start offset of a match. -/
def tangleAtStart (b : Buffer) (off : Nat) : Bool :=
  (b.namesAt off).any (fun n => strStarts "tangle::" n)

/-- One iteration of the main-thread application loop: the match is
applied as a tangle tag over its range unless the start offset already
carries a tangle-family tag.  Offsets are clamped to the buffer end as
by iter_at_offset. -/
def applyScanStep (buf : Buffer) (m : Nat × String) : Buffer :=
  if tangleAtStart buf (min m.1 buf.text.length) then buf
  else
    buf.applyTag ("tangle::" ++ m.2) (min m.1 buf.text.length)
      (min (min m.1 buf.text.length + m.2.length) buf.text.length)

/-- Model of the main-thread application loop of auto_link_note_titles
over the full match list. -/
def applyScanMatches (b : Buffer) (ms : List (Nat × String)) : Buffer :=
  ms.foldl applyScanStep b

-- ── Scanner lemmas ─────────────────────────────────────────────────

/-- Every index reported by the sweep loop satisfies the substring and
word-boundary tests of the scanner. -/
theorem mem_sweepTitleGo {cs tc : List Char} {fuel i j : Nat}
    (h : j ∈ sweepTitleGo cs tc fuel i) :
    matchesAt cs tc j = true ∧ boundaryOk cs tc j = true := by
  induction fuel generalizing i with
  | zero => simp [sweepTitleGo] at h
  | succ n ih =>
    simp only [sweepTitleGo] at h
    split at h
    · split at h
      · split at h
        · rcases List.mem_cons.mp h with rfl | h2
          · exact ⟨by assumption, by assumption⟩
          · exact ih h2
        · exact ih h
      · exact ih h
    · simp at h

/-- Indices reported by sweepTitle satisfy the substring and boundary
tests. -/
theorem mem_sweepTitle {cs tc : List Char} {i j : Nat} (h : j ∈ sweepTitle cs tc i) :
    matchesAt cs tc j = true ∧ boundaryOk cs tc j = true := by
  unfold sweepTitle at h
  split at h
  · simp at h
  · exact mem_sweepTitleGo h

/-- Every element of the accumulated scanner fold is either from the
accumulator or a sweep result of some title. -/
theorem mem_scan_fold {cs : List Char} {own : String} {ts : List String}
    {acc : List (Nat × String)} {x : Nat × String}
    (h : x ∈ ts.foldl (fun acc title =>
      if title == own || title == "" || title == "New Note" then acc
      else
        let tc := chars title
        if tc.length == 0 || tc.length > cs.length then acc
        else acc ++ (sweepTitle cs tc 0).map (fun i => (i, title))) acc) :
    x ∈ acc ∨ x.1 ∈ sweepTitle cs (chars x.2) 0 := by
  induction ts generalizing acc with
  | nil => exact Or.inl h
  | cons t ts ih =>
    simp only [List.foldl_cons] at h
    rcases ih h with h2 | h2
    · split at h2
      · exact Or.inl h2
      · split at h2
        · exact Or.inl h2
        · rcases List.mem_append.mp h2 with h3 | h3
          · exact Or.inl h3
          · rcases List.mem_map.mp h3 with ⟨i, hi, hx⟩
            right
            have h1 : x.1 = i := by rw [← hx]
            have h2' : x.2 = t := by rw [← hx]
            rw [h1, h2']
            exact hi
    · exact Or.inr h2

/-- Claim C2, counterexample: with known titles Apple and Apple Pie and
document text "I ate Apple Pie today", the scan reports TWO overlapping
matches at offset 6 — the longer title first, then an additional match
for "Apple" at the same position — not a single match as the claim
states. -/
theorem c2_counterexample :
    autoLinkScan "I ate Apple Pie today" ["Apple", "Apple Pie"] "Notes" =
      [(6, "Apple Pie"), (6, "Apple")] ∧
    (autoLinkScan "I ate Apple Pie today" ["Apple", "Apple Pie"] "Notes").length ≠ 1 := by
  constructor
  · decide
  · decide

/-- Claim C2, amended: the scan reports matches for both titles at
offset 6, longest first; applying the results to the buffer creates a
single tangle link, for "Apple Pie" over offsets 6 to 15, because the
later "Apple" match finds offset 6 already carrying a tangle tag and is
skipped. -/
theorem c2_single_link_after_apply :
    (applyScanMatches { text := chars "I ate Apple Pie today", tags := [], cursor := 0 }
        (autoLinkScan "I ate Apple Pie today" ["Apple", "Apple Pie"] "Notes")).tags
      = [("tangle::Apple Pie", 6, 15)] := by
  decide

/-- Claim C3: every match reported by the scanner has the title's
characters present at the match offset, and a word boundary — buffer
edge or a non-alphanumeric character — immediately on both sides. -/
theorem c3_match_boundaries (text : String) (titles : List String) (own : String)
    (off : Nat) (t : String)
    (hm : (off, t) ∈ autoLinkScan text titles own) :
    sliceText (chars text) off (off + (chars t).length) = chars t ∧
    (off = 0 ∨ isAlnumChar ((chars text).getD (off - 1) ' ') = false) ∧
    (off + (chars t).length ≥ (chars text).length ∨
      isAlnumChar ((chars text).getD (off + (chars t).length) ' ') = false) := by
  unfold autoLinkScan at hm
  rcases mem_scan_fold hm with h | h
  · simp at h
  · have hmb := mem_sweepTitle h
    refine ⟨?_, ?_, ?_⟩
    · have := hmb.1
      unfold matchesAt at this
      unfold sliceText
      simpa using this
    · have hb := hmb.2
      simp only [boundaryOk, Bool.and_eq_true, Bool.or_eq_true] at hb
      rcases hb.1 with h2 | h2
      · left; simpa using h2
      · right; simpa using h2
    · have hb := hmb.2
      simp only [boundaryOk, Bool.and_eq_true, Bool.or_eq_true] at hb
      rcases hb.2 with h2 | h2
      · left; simpa using h2
      · right; simpa using h2

/-- Witness for claim C3 at a concrete input: the title "Cat" in the
text "a Cat b" matches at offset 2 with both boundaries satisfied. -/
theorem c3_match_boundaries_witness :
    sliceText (chars "a Cat b") 2 (2 + (chars "Cat").length) = chars "Cat" ∧
    (2 = 0 ∨ isAlnumChar ((chars "a Cat b").getD (2 - 1) ' ') = false) ∧
    (2 + (chars "Cat").length ≥ (chars "a Cat b").length ∨
      isAlnumChar ((chars "a Cat b").getD (2 + (chars "Cat").length) ' ') = false) :=
  c3_match_boundaries "a Cat b" ["Cat"] "Notes" 2 "Cat" (by decide)

/-- Claim C3, instance from the spec: the title "Cat" never matches
inside the text "Catalog". -/
theorem c3_cat_catalog :
    autoLinkScan "Catalog" ["Cat"] "Notes" = [] := by decide

-- ── Claim C4: list prefix recognition ──────────────────────────────

/-- Combined numbered-marker test of the source: the first dot-space
occurrence is preceded only by digits and sits at index at most k. -/
def dotDigitsOk (k : Nat) (t : List Char) : Bool :=
  match findDotSpace t with
  | some d => (t.take d).all (fun c => c.isDigit) && decide (d ≤ k)
  | none => false

/-- Declarative counterpart: the text begins with at most k digits
(possibly none) followed directly by dot-space. -/
def digitsHead (k : Nat) (t : List Char) : Bool :=
  (t.takeWhile (fun c => c.isDigit)).length ≤ k &&
    (chars ". ").isPrefixOf (t.drop (t.takeWhile (fun c => c.isDigit)).length)

/-- Shape asserted by the claim: the fixed bullet text, or a head of at
most four digits followed by dot-space, preceded by at most two leading
space characters. -/
def claimedListShape (l : List Char) : Bool :=
  bulletMark.isPrefixOf l ||
  ((l.takeWhile (fun c => c == ' ')).length ≤ 2 &&
    digitsHead 4 (l.dropWhile (fun c => c == ' ')))

/-- Shape the code actually recognizes: the fixed bullet text, or any
run of leading whitespace followed by at most four digits (possibly
none) followed by dot-space. -/
def codeListShape (l : List Char) : Bool :=
  bulletMark.isPrefixOf l || digitsHead 4 (l.dropWhile isWsChar)

/-- Unfolding of findDotSpace one step past a non-matching head pair. -/
theorem findDotSpace_step {c1 c2 : Char} {r : List Char}
    (hne : (c1 == '.' && c2 == ' ') = false) :
    findDotSpace (c1 :: c2 :: r) = (findDotSpace (c2 :: r)).map (· + 1) := by
  rw [findDotSpace, hne]
  simp

/-- dotDigitsOk over a digit head counts the head against the bound. -/
theorem dotDigitsOk_digit {c1 c2 : Char} {r : List Char} {k : Nat}
    (hne : (c1 == '.' && c2 == ' ') = false) (hd : c1.isDigit = true) :
    dotDigitsOk (k + 1) (c1 :: c2 :: r) = dotDigitsOk k (c2 :: r) := by
  unfold dotDigitsOk
  rw [findDotSpace_step hne]
  cases hfd : findDotSpace (c2 :: r) with
  | none => simp
  | some d =>
    simp only [Option.map_some', List.take_succ_cons, List.all_cons, hd, Bool.true_and]
    have : decide (d + 1 ≤ k + 1) = decide (d ≤ k) :=
      decide_eq_decide.mpr (by omega)
    rw [this]

/-- dotDigitsOk with bound zero fails on any non-dot-space head. -/
theorem dotDigitsOk_zero {c1 c2 : Char} {r : List Char}
    (hne : (c1 == '.' && c2 == ' ') = false) :
    dotDigitsOk 0 (c1 :: c2 :: r) = false := by
  unfold dotDigitsOk
  rw [findDotSpace_step hne]
  cases hfd : findDotSpace (c2 :: r) with
  | none => simp
  | some d =>
    simp only [Option.map_some']
    have : decide (d + 1 ≤ 0) = false := decide_eq_false (by omega)
    rw [this, Bool.and_false]

/-- dotDigitsOk fails when the head is neither dot-space nor a digit. -/
theorem dotDigitsOk_other {c1 c2 : Char} {r : List Char} {k : Nat}
    (hne : (c1 == '.' && c2 == ' ') = false) (hd : c1.isDigit = false) :
    dotDigitsOk k (c1 :: c2 :: r) = false := by
  unfold dotDigitsOk
  rw [findDotSpace_step hne]
  cases hfd : findDotSpace (c2 :: r) with
  | none => simp
  | some d =>
    simp only [Option.map_some', List.take_succ_cons, List.all_cons, hd, Bool.false_and,
      Bool.and_self]

/-- digitsHead over a digit head counts the head against the bound. -/
theorem digitsHead_digit {c1 : Char} {t : List Char} {k : Nat} (hd : c1.isDigit = true) :
    digitsHead (k + 1) (c1 :: t) = digitsHead k t := by
  unfold digitsHead
  rw [List.takeWhile_cons, if_pos hd, List.length_cons, List.drop_succ_cons]
  have : decide ((t.takeWhile (fun c => c.isDigit)).length + 1 ≤ k + 1) =
      decide ((t.takeWhile (fun c => c.isDigit)).length ≤ k) :=
    decide_eq_decide.mpr (by omega)
  rw [this]

/-- digitsHead with bound zero fails on a digit head. -/
theorem digitsHead_zero {c1 : Char} {t : List Char} (hd : c1.isDigit = true) :
    digitsHead 0 (c1 :: t) = false := by
  unfold digitsHead
  rw [List.takeWhile_cons, if_pos hd, List.length_cons]
  have : decide ((t.takeWhile (fun c => c.isDigit)).length + 1 ≤ 0) = false :=
    decide_eq_false (by omega)
  rw [this, Bool.false_and]

/-- digitsHead over a non-digit head is the bare dot-space test. -/
theorem digitsHead_nondigit {c1 : Char} {t : List Char} {k : Nat} (hd : c1.isDigit = false) :
    digitsHead k (c1 :: t) = (chars ". ").isPrefixOf (c1 :: t) := by
  unfold digitsHead
  rw [List.takeWhile_cons, if_neg (by simp [hd]), List.length_nil, List.drop_zero]
  simp

/-- Dot-space prefix test is false past a non-matching head pair. -/
theorem dotSpace_not_head {c1 c2 : Char} {r : List Char}
    (hds : ¬(c1 = '.' ∧ c2 = ' ')) :
    (chars ". ").isPrefixOf (c1 :: c2 :: r) = false := by
  show List.isPrefixOf ['.', ' '] (c1 :: c2 :: r) = false
  by_cases h1 : c1 = '.'
  · have h2 : c2 ≠ ' ' := fun h => hds ⟨h1, h⟩
    subst h1
    simp [List.isPrefixOf]
    exact fun h => absurd h.symm h2
  · simp [List.isPrefixOf]
    intro h
    exact absurd h.symm h1

/-- Dot-space search combined with the digit checks of the source is the
same as a digits-then-dot-space head with the digit count bounded. -/
theorem dotDigitsOk_eq_digitsHead (k : Nat) (t : List Char) :
    dotDigitsOk k t = digitsHead k t := by
  induction t generalizing k with
  | nil => simp [dotDigitsOk, digitsHead, findDotSpace, chars]
  | cons c1 rest ih =>
    cases rest with
    | nil =>
      by_cases hd : c1.isDigit <;>
        simp [dotDigitsOk, digitsHead, findDotSpace, chars, List.takeWhile, hd,
          List.isPrefixOf]
    | cons c2 rest2 =>
      by_cases hds : c1 = '.' ∧ c2 = ' '
      · rcases hds with ⟨rfl, rfl⟩
        have hdig : ('.' : Char).isDigit = false := by decide
        simp [dotDigitsOk, digitsHead, findDotSpace, chars, List.takeWhile, hdig,
          List.isPrefixOf]
      · have hne : (c1 == '.' && c2 == ' ') = false := by
          by_cases h1 : c1 = '.'
          · by_cases h2 : c2 = ' '
            · exact absurd ⟨h1, h2⟩ hds
            · simp [h2]
          · simp [h1]
        by_cases hd : c1.isDigit
        · cases k with
          | zero => rw [dotDigitsOk_zero hne, digitsHead_zero hd]
          | succ k2 => rw [dotDigitsOk_digit hne hd, digitsHead_digit hd, ih]
        · rw [dotDigitsOk_other hne (by simpa using hd),
            digitsHead_nondigit (by simpa using hd), dotSpace_not_head hds]

/-- Claim C4, counterexample: the line with four leading spaces before
the numbered marker is recognized by the code (count 7), although the
claim allows at most two leading spaces and asserts every other line
yields 0. -/
theorem c4_counterexample :
    countListMarkChars (chars "    1. x") = 7 ∧
    claimedListShape (chars "    1. x") = false := by
  constructor
  · decide
  · decide

/-- Claim C4, amended: count_list_prefix_chars is nonzero exactly for a
line starting with the fixed bullet text, or a line whose run of leading
whitespace (of any length, not limited to two spaces) is followed by at
most four digits (possibly none) followed directly by dot-space. -/
theorem c4_shape_characterization (l : List Char) :
    countListMarkChars l ≠ 0 ↔ codeListShape l = true := by
  simp only [countListMarkChars, codeListShape]
  by_cases hb : bulletMark.isPrefixOf l = true
  · simp [hb]
  · rw [if_neg hb, Bool.eq_false_iff.mpr hb]
    rw [← dotDigitsOk_eq_digitsHead]
    simp only [Bool.false_or]
    unfold dotDigitsOk
    cases hfd : findDotSpace (List.dropWhile isWsChar l) with
    | none => simp
    | some d =>
      by_cases hc : (((List.dropWhile isWsChar l).take d).all (fun c => c.isDigit)
          && decide (d ≤ 4)) = true
      · simp only [hc, if_true]
        simp
      · have hc2 : (((List.dropWhile isWsChar l).take d).all (fun c => c.isDigit)
            && decide (d ≤ 4)) = false := Bool.eq_false_iff.mpr hc
        simp only [hc2, if_false]
        simp

/-- Witness for claim C4 at a concrete input: the standard numbered line
is recognized. -/
theorem c4_shape_characterization_witness :
    countListMarkChars (chars "  3. x") ≠ 0 :=
  (c4_shape_characterization (chars "  3. x")).mpr (by decide)

-- ── Coverage lemmas ────────────────────────────────────────────────

/-- Two booleans agreeing as propositions are equal. -/
theorem bool_eq_of_iff {a b : Bool} (h : a = true ↔ b = true) : a = b := by
  cases a <;> cases b <;> simp_all

/-- Coverage unfolded to a tag-range existence statement. -/
theorem covers_iff (b : Buffer) (n : String) (i : Nat) :
    b.covers n i = true ↔ ∃ t ∈ b.tags, t.1 = n ∧ t.2.1 ≤ i ∧ i < t.2.2 := by
  unfold Buffer.covers
  simp [List.any_eq_true, beq_iff_eq, and_assoc]

/-- Coverage after apply_tag: the old coverage plus the new range. -/
theorem covers_applyTag_iff (b : Buffer) (n m : String) (s e i : Nat) :
    (b.applyTag n s e).covers m i = true ↔
      b.covers m i = true ∨ (n = m ∧ s ≤ i ∧ i < e) := by
  unfold Buffer.applyTag
  simp only [covers_iff, List.mem_append, List.mem_singleton]
  constructor
  · rintro ⟨t, (hmem | rfl), hn, h1, h2⟩
    · exact Or.inl ⟨t, hmem, hn, h1, h2⟩
    · exact Or.inr ⟨hn, h1, h2⟩
  · rintro (⟨t, hmem, hn, h1, h2⟩ | ⟨rfl, h1, h2⟩)
    · exact ⟨t, Or.inl hmem, hn, h1, h2⟩
    · exact ⟨(n, s, e), Or.inr rfl, rfl, h1, h2⟩

/-- Coverage after remove_tag: the old coverage outside the removed
interval of the removed name. -/
theorem covers_removeTag_iff (b : Buffer) (n m : String) (s e i : Nat) :
    (b.removeTag n s e).covers m i = true ↔
      (b.covers m i = true ∧ ¬(m = n ∧ s ≤ i ∧ i < e)) := by
  unfold Buffer.removeTag
  simp only [covers_iff, List.mem_flatMap]
  constructor
  · rintro ⟨t, ⟨u, hu, htu⟩, hn, h1, h2⟩
    by_cases hun : (u.1 == n) = true
    · rw [if_pos hun] at htu
      have hu1 : u.1 = n := by simpa using hun
      rcases List.mem_append.mp htu with hp | hp
      · split at hp
        · rcases List.mem_singleton.mp hp with rfl
          refine ⟨⟨u, hu, hn, ?_, ?_⟩, ?_⟩
          · simpa using h1
          · have : i < min u.2.2 s := h2
            omega
          · rintro ⟨rfl, hsi, hie⟩
            have : i < min u.2.2 s := h2
            omega
        · simp at hp
      · split at hp
        · rcases List.mem_singleton.mp hp with rfl
          refine ⟨⟨u, hu, hn, ?_, h2⟩, ?_⟩
          · have : max u.2.1 e ≤ i := h1
            omega
          · rintro ⟨rfl, hsi, hie⟩
            have : max u.2.1 e ≤ i := h1
            omega
        · simp at hp
    · rw [if_neg hun] at htu
      rcases List.mem_singleton.mp htu with rfl
      refine ⟨⟨t, hu, hn, h1, h2⟩, ?_⟩
      rintro ⟨rfl, _, _⟩
      rw [hn] at hun
      simp at hun
  · rintro ⟨⟨t, ht, hn, h1, h2⟩, hout⟩
    by_cases htn : (t.1 == n) = true
    · have ht1 : t.1 = n := by simpa using htn
      have hmn : m = n := by rw [← hn, ht1]
      have hio : i < s ∨ e ≤ i := by
        by_cases hs : s ≤ i
        · by_cases he : i < e
          · exact absurd ⟨hmn, hs, he⟩ hout
          · right; omega
        · left; omega
      rcases hio with hio | hio
      · refine ⟨(t.1, t.2.1, min t.2.2 s), ⟨t, ht, ?_⟩, hn, h1,
          (show i < min t.2.2 s by omega)⟩
        rw [if_pos htn]
        apply List.mem_append.mpr
        left
        rw [if_pos (by omega : t.2.1 < min t.2.2 s)]
        simp
      · refine ⟨(t.1, max t.2.1 e, t.2.2), ⟨t, ht, ?_⟩, hn,
          (show max t.2.1 e ≤ i by omega), h2⟩
        rw [if_pos htn]
        apply List.mem_append.mpr
        right
        rw [if_pos (by omega : max t.2.1 e < t.2.2)]
        simp
    · refine ⟨t, ⟨t, ht, ?_⟩, hn, h1, h2⟩
      rw [if_neg htn]
      simp

/-- has_tag_in_range as an existence statement over the offsets. -/
theorem hasTagInRange_iff (b : Buffer) (n : String) (s e : Nat) :
    b.hasTagInRange n s e = true ↔ ∃ i, s ≤ i ∧ i < e ∧ b.covers n i = true := by
  unfold Buffer.hasTagInRange
  simp only [List.any_eq_true, List.mem_range'_1]
  constructor
  · rintro ⟨i, ⟨h1, h2⟩, hc⟩
    exact ⟨i, h1, by omega, hc⟩
  · rintro ⟨i, h1, h2, hc⟩
    exact ⟨i, ⟨h1, by omega⟩, hc⟩

-- ── Claim C7: heading exclusivity ──────────────────────────────────

/-- Start offset of the cursor line (unwrap as in the source). -/
def cursorLineStart (b : Buffer) : Nat :=
  (lineStartOff b.text (lineOf b.text b.cursor)).getD b.cursor

/-- End offset of the cursor line. -/
def cursorLineEnd (b : Buffer) : Nat := lineEndOff b.text (cursorLineStart b)

/-- Coverage after removing a family of tags over one range. -/
theorem covers_removeFold_iff (L : List String) (b : Buffer) (s e : Nat)
    (m : String) (i : Nat) :
    ((L.foldl (fun acc ht => acc.removeTag ht s e) b).covers m i = true) ↔
      (b.covers m i = true ∧ ¬(m ∈ L ∧ s ≤ i ∧ i < e)) := by
  induction L generalizing b with
  | nil => simp
  | cons hz L ih =>
    simp only [List.foldl_cons]
    rw [ih, covers_removeTag_iff]
    constructor
    · rintro ⟨⟨hc, hno1⟩, hno2⟩
      refine ⟨hc, ?_⟩
      rintro ⟨hm, h1, h2⟩
      rcases List.mem_cons.mp hm with rfl | hm2
      · exact hno1 ⟨rfl, h1, h2⟩
      · exact hno2 ⟨hm2, h1, h2⟩
    · rintro ⟨hc, hno⟩
      refine ⟨⟨hc, ?_⟩, ?_⟩
      · rintro ⟨rfl, h1, h2⟩
        exact hno ⟨List.mem_cons_self _ _, h1, h2⟩
      · rintro ⟨hm, h1, h2⟩
        exact hno ⟨List.mem_cons_of_mem _ hm, h1, h2⟩

/-- Claim C7, counterexample: applying h2 to a line already tagged h2
removes the tag and applies nothing, leaving ZERO heading tags covering
the line — not exactly one as the claim states for applying any heading
level to any line. -/
theorem c7_counterexample :
    (headingNames.all (fun h => (List.range 5).all (fun i =>
      !(applyHeading { text := chars "Hello", tags := [("h2", 0, 5)], cursor := 0 }
          "h2").covers h i))) = true := by
  decide

/-- Claim C7, amended: after apply_heading with a heading level on the
cursor line, no other heading tag covers any position of the line; the
requested level covers the whole line exactly when it was not already
present somewhere on the line (in particular applying h2 to a line
tagged h1 leaves exactly the h2 heading), and no heading at all remains
when it was present (toggle off) — so at most one heading tag covers
any position of the line in every case. -/
theorem c7_heading_exclusive (b : Buffer) (name : String) (hn : name ∈ headingNames) :
    (∀ i, cursorLineStart b ≤ i → i < cursorLineEnd b →
      ∀ h₂ ∈ headingNames, h₂ ≠ name → (applyHeading b name).covers h₂ i = false) ∧
    (b.hasTagInRange name (cursorLineStart b) (cursorLineEnd b) = false →
      ∀ i, cursorLineStart b ≤ i → i < cursorLineEnd b →
        (applyHeading b name).covers name i = true) ∧
    (b.hasTagInRange name (cursorLineStart b) (cursorLineEnd b) = true →
      ∀ i, cursorLineStart b ≤ i → i < cursorLineEnd b →
        (applyHeading b name).covers name i = false) := by
  have hunf : applyHeading b name =
      (if b.hasTagInRange name (cursorLineStart b) (cursorLineEnd b) then
        headingNames.foldl
          (fun acc ht => acc.removeTag ht (cursorLineStart b) (cursorLineEnd b)) b
      else
        (headingNames.foldl
          (fun acc ht => acc.removeTag ht (cursorLineStart b) (cursorLineEnd b))
          b).applyTag name (cursorLineStart b) (cursorLineEnd b)) := by
    rfl
  by_cases hhas : b.hasTagInRange name (cursorLineStart b) (cursorLineEnd b) = true
  · rw [hunf, if_pos hhas]
    refine ⟨?_, ?_, ?_⟩
    · intro i h1 h2 h₂ hmem _
      apply Bool.eq_false_iff.mpr
      intro hcov
      rcases (covers_removeFold_iff _ _ _ _ _ _).mp hcov with ⟨_, hno⟩
      exact hno ⟨hmem, h1, h2⟩
    · intro hfalse
      rw [hhas] at hfalse
      cases hfalse
    · intro _ i h1 h2
      apply Bool.eq_false_iff.mpr
      intro hcov
      rcases (covers_removeFold_iff _ _ _ _ _ _).mp hcov with ⟨_, hno⟩
      exact hno ⟨hn, h1, h2⟩
  · have hhas2 : b.hasTagInRange name (cursorLineStart b) (cursorLineEnd b) = false :=
      Bool.eq_false_iff.mpr hhas
    rw [hunf, if_neg (by rw [hhas2]; simp)]
    refine ⟨?_, ?_, ?_⟩
    · intro i h1 h2 h₂ hmem hne
      apply Bool.eq_false_iff.mpr
      intro hcov
      rcases (covers_applyTag_iff _ _ _ _ _ _).mp hcov with hcov2 | ⟨heq, _, _⟩
      · rcases (covers_removeFold_iff _ _ _ _ _ _).mp hcov2 with ⟨_, hno⟩
        exact hno ⟨hmem, h1, h2⟩
      · exact hne heq.symm
    · intro _ i h1 h2
      exact (covers_applyTag_iff _ _ _ _ _ _).mpr (Or.inr ⟨rfl, h1, h2⟩)
    · intro htrue
      rw [htrue] at hhas2
      cases hhas2

/-- Witness for claim C7 at a concrete input: applying h2 to a line
tagged h1 leaves h2 covering position 0 and h1 not covering it. -/
theorem c7_heading_exclusive_witness :
    (applyHeading { text := chars "Hi", tags := [("h1", 0, 2)], cursor := 0 }
      "h2").covers "h2" 0 = true ∧
    (applyHeading { text := chars "Hi", tags := [("h1", 0, 2)], cursor := 0 }
      "h2").covers "h1" 0 = false := by
  have h := c7_heading_exclusive
    { text := chars "Hi", tags := [("h1", 0, 2)], cursor := 0 } "h2" (by decide)
  exact ⟨h.2.1 (by decide) 0 (by decide) (by decide),
    h.1 0 (by decide) (by decide) "h1" (by decide) (by decide)⟩

-- ── Claim C6: idempotent application of scan results ───────────────

/-- tangleAtStart characterized through coverage: some tangle-named tag
covers the offset. -/
theorem tangleAtStart_iff (b : Buffer) (off : Nat) :
    tangleAtStart b off = true ↔
      ∃ n, strStarts "tangle::" n = true ∧ b.covers n off = true := by
  unfold tangleAtStart Buffer.namesAt
  simp only [List.any_eq_true, List.mem_map, List.mem_filter]
  constructor
  · rintro ⟨n, ⟨t, ⟨ht, hr⟩, rfl⟩, hpre⟩
    refine ⟨t.1, hpre, ?_⟩
    rw [covers_iff]
    simp only [Bool.and_eq_true, decide_eq_true_eq] at hr
    exact ⟨t, ht, rfl, hr.1, hr.2⟩
  · rintro ⟨n, hpre, hcov⟩
    rcases (covers_iff _ _ _).mp hcov with ⟨t, ht, rfl, h1, h2⟩
    refine ⟨t.1, ⟨t, ⟨ht, ?_⟩, rfl⟩, hpre⟩
    simp [h1, h2]

/-- The application loop never changes the text. -/
theorem applyScanStep_text (b : Buffer) (m : Nat × String) :
    (applyScanStep b m).text = b.text := by
  unfold applyScanStep
  split
  · rfl
  · rfl

/-- The application loop never changes the text (whole list). -/
theorem applyScanMatches_text (b : Buffer) (ms : List (Nat × String)) :
    (applyScanMatches b ms).text = b.text := by
  unfold applyScanMatches
  induction ms generalizing b with
  | nil => rfl
  | cons m ms ih => rw [List.foldl_cons, ih, applyScanStep_text]

/-- One application step only adds coverage. -/
theorem applyScanStep_mono {b : Buffer} {n : String} {i : Nat}
    (h : b.covers n i = true) (m : Nat × String) :
    (applyScanStep b m).covers n i = true := by
  unfold applyScanStep
  split
  · exact h
  · exact (covers_applyTag_iff _ _ _ _ _ _).mpr (Or.inl h)

/-- A tangle tag present at an offset stays present through the loop. -/
theorem tangleAtStart_mono {b : Buffer} {off : Nat}
    (h : tangleAtStart b off = true) (ms : List (Nat × String)) :
    tangleAtStart (applyScanMatches b ms) off = true := by
  unfold applyScanMatches
  induction ms generalizing b with
  | nil => exact h
  | cons m ms ih =>
    rw [List.foldl_cons]
    apply ih
    rcases (tangleAtStart_iff _ _).mp h with ⟨n, hpre, hcov⟩
    exact (tangleAtStart_iff _ _).mpr ⟨n, hpre, applyScanStep_mono hcov m⟩

/-- After one step on a match, the match start is tangle-tagged or the
match range is empty. -/
theorem applyScanStep_blocks (b : Buffer) (m : Nat × String) :
    tangleAtStart (applyScanStep b m) (min m.1 b.text.length) = true ∨
      min (min m.1 b.text.length + m.2.length) b.text.length ≤ min m.1 b.text.length := by
  unfold applyScanStep
  by_cases hb : tangleAtStart b (min m.1 b.text.length) = true
  · rw [if_pos hb]
    exact Or.inl hb
  · rw [if_neg hb]
    by_cases he : min (min m.1 b.text.length + m.2.length) b.text.length ≤ min m.1 b.text.length
    · exact Or.inr he
    · left
      apply (tangleAtStart_iff _ _).mpr
      refine ⟨"tangle::" ++ m.2, ?_, ?_⟩
      · unfold strStarts
        apply List.isPrefixOf_iff_prefix.mpr
        show ("tangle::").data <+: ("tangle::" ++ m.2).data
        rw [String.data_append]
        exact List.prefix_append _ _
      · exact (covers_applyTag_iff _ _ _ _ _ _).mpr (Or.inr ⟨rfl, le_refl _, by omega⟩)

/-- After a full pass, every match of the list is blocked or empty. -/
theorem applyScanMatches_blocks (b : Buffer) (ms : List (Nat × String)) :
    ∀ m ∈ ms,
      tangleAtStart (applyScanMatches b ms) (min m.1 b.text.length) = true ∨
        min (min m.1 b.text.length + m.2.length) b.text.length ≤ min m.1 b.text.length := by
  induction ms generalizing b with
  | nil => intro m hm; cases hm
  | cons m0 ms ih =>
    intro m hm
    rcases List.mem_cons.mp hm with rfl | hm2
    · rcases applyScanStep_blocks b m with hb | he
      · left
        unfold applyScanMatches
        rw [List.foldl_cons]
        exact tangleAtStart_mono hb ms
      · exact Or.inr he
    · have htext : (applyScanStep b m0).text = b.text := applyScanStep_text b m0
      have := ih (applyScanStep b m0) m hm2
      rw [htext] at this
      unfold applyScanMatches
      rw [List.foldl_cons]
      exact this

/-- A pass over matches that are all blocked or empty does not change
coverage. -/
theorem applyScanMatches_noop (ms : List (Nat × String)) (b : Buffer)
    (hall : ∀ m ∈ ms,
      tangleAtStart b (min m.1 b.text.length) = true ∨
        min (min m.1 b.text.length + m.2.length) b.text.length ≤ min m.1 b.text.length)
    (n : String) (i : Nat) :
    (applyScanMatches b ms).covers n i = b.covers n i := by
  induction ms generalizing b with
  | nil => rfl
  | cons m ms ih =>
    unfold applyScanMatches
    rw [List.foldl_cons]
    rcases hall m (List.mem_cons_self _ _) with hb | he
    · have hstep : applyScanStep b m = b := by
        unfold applyScanStep
        rw [if_pos hb]
      rw [hstep]
      exact ih b (fun m2 hm2 => hall m2 (List.mem_cons_of_mem _ hm2))
    · by_cases hb : tangleAtStart b (min m.1 b.text.length) = true
      · have hstep : applyScanStep b m = b := by
          unfold applyScanStep
          rw [if_pos hb]
        rw [hstep]
        exact ih b (fun m2 hm2 => hall m2 (List.mem_cons_of_mem _ hm2))
      · have hstep : applyScanStep b m =
            b.applyTag ("tangle::" ++ m.2) (min m.1 b.text.length)
              (min (min m.1 b.text.length + m.2.length) b.text.length) := by
          unfold applyScanStep
          rw [if_neg hb]
        rw [hstep]
        set b2 := b.applyTag ("tangle::" ++ m.2) (min m.1 b.text.length)
          (min (min m.1 b.text.length + m.2.length) b.text.length) with hb2
        have hcovEq : ∀ n2 i2, b2.covers n2 i2 = b.covers n2 i2 := by
          intro n2 i2
          apply bool_eq_of_iff
          rw [hb2, covers_applyTag_iff]
          constructor
          · rintro (h | ⟨_, h1, h2⟩)
            · exact h
            · omega
          · exact Or.inl
        have htext2 : b2.text = b.text := rfl
        have hall2 : ∀ m2 ∈ ms,
            tangleAtStart b2 (min m2.1 b2.text.length) = true ∨
              min (min m2.1 b2.text.length + m2.2.length) b2.text.length ≤
                min m2.1 b2.text.length := by
          intro m2 hm2
          rw [htext2]
          rcases hall m2 (List.mem_cons_of_mem _ hm2) with hbm | hem
          · left
            rcases (tangleAtStart_iff _ _).mp hbm with ⟨nm, hpre, hcov⟩
            exact (tangleAtStart_iff _ _).mpr ⟨nm, hpre, by rw [hcovEq]; exact hcov⟩
          · exact Or.inr hem
        show (applyScanMatches b2 ms).covers n i = Buffer.covers b n i
        rw [ih b2 hall2]
        exact hcovEq n i

/-- Claim C6, counterexample: a match whose target range overlaps a
pre-existing tangle tag in its middle (but not at its start offset) is
still applied — the code checks only the start offset, not the whole
range as the claim states. -/
theorem c6_counterexample :
    (applyScanMatches { text := chars "abcdef", tags := [("tangle::X", 3, 4)], cursor := 0 }
      [(2, "abc")]).covers "tangle::abc" 2 = true ∧
    Buffer.covers { text := chars "abcdef", tags := [("tangle::X", 3, 4)], cursor := 0 }
      "tangle::X" 3 = true := by
  constructor
  · decide
  · decide

/-- Claim C6, amended: a match is skipped exactly when its start offset
already carries a tangle-family tag; this still makes repeated
application of the same scan results leave the coverage unchanged,
because a first pass leaves every match blocked at its start or with an
empty range. -/
theorem c6_apply_idempotent :
    (∀ (b : Buffer) (m : Nat × String),
      tangleAtStart b (min m.1 b.text.length) = true → applyScanMatches b [m] = b) ∧
    (∀ (b : Buffer) (ms : List (Nat × String)) (n : String) (i : Nat),
      (applyScanMatches (applyScanMatches b ms) ms).covers n i =
        (applyScanMatches b ms).covers n i) := by
  constructor
  · intro b m hb
    show applyScanStep b m = b
    unfold applyScanStep
    rw [if_pos hb]
  · intro b ms n i
    apply applyScanMatches_noop
    intro m hm
    have := applyScanMatches_blocks b ms m hm
    rw [applyScanMatches_text b ms]
    exact this

/-- Witness for claim C6 at concrete inputs: a match starting on an
existing tangle tag is a no-op, and a second pass over the Apple Pie
scan results does not change coverage at offset 6. -/
theorem c6_apply_idempotent_witness :
    applyScanMatches { text := chars "ab", tags := [("tangle::T", 0, 1)], cursor := 0 }
      [(0, "ab")] =
      { text := chars "ab", tags := [("tangle::T", 0, 1)], cursor := 0 } ∧
    (applyScanMatches
        (applyScanMatches { text := chars "I ate Apple Pie today", tags := [], cursor := 0 }
          [(6, "Apple Pie"), (6, "Apple")])
        [(6, "Apple Pie"), (6, "Apple")]).covers "tangle::Apple Pie" 6 =
      (applyScanMatches { text := chars "I ate Apple Pie today", tags := [], cursor := 0 }
        [(6, "Apple Pie"), (6, "Apple")]).covers "tangle::Apple Pie" 6 :=
  ⟨c6_apply_idempotent.1 _ _ (by decide), c6_apply_idempotent.2 _ _ _ _⟩

-- ── Insert and delete: pointwise coverage ──────────────────────────

/-- Coverage after insert, unfolded over the original tag table. -/
theorem covers_insertAt_iff (b : Buffer) (p : Nat) (cs : List Char) (n : String) (i : Nat) :
    (b.insertAt p cs).covers n i = true ↔
      ∃ t ∈ b.tags, t.1 = n ∧
        (if p ≤ t.2.1 then t.2.1 + cs.length else t.2.1) ≤ i ∧
        i < (if p < t.2.2 then t.2.2 + cs.length else t.2.2) := by
  unfold Buffer.insertAt
  simp only [covers_iff, List.mem_map]
  constructor
  · rintro ⟨t, ⟨u, hu, rfl⟩, hn, h1, h2⟩
    exact ⟨u, hu, hn, h1, h2⟩
  · rintro ⟨u, hu, hn, h1, h2⟩
    exact ⟨_, ⟨u, hu, rfl⟩, hn, h1, h2⟩

/-- Coverage before the insertion point is unchanged by insert. -/
theorem covers_insertAt_low {b : Buffer} {p : Nat} {cs : List Char} {n : String} {i : Nat}
    (h : i < p) : (b.insertAt p cs).covers n i = b.covers n i := by
  apply bool_eq_of_iff
  rw [covers_insertAt_iff, covers_iff]
  constructor
  · rintro ⟨t, ht, hn, h1, h2⟩
    refine ⟨t, ht, hn, ?_, ?_⟩
    · by_cases ha : p ≤ t.2.1
      · rw [if_pos ha] at h1; omega
      · rw [if_neg ha] at h1; omega
    · by_cases hb : p < t.2.2
      · rw [if_pos hb] at h2; omega
      · rw [if_neg hb] at h2; omega
  · rintro ⟨t, ht, hn, h1, h2⟩
    refine ⟨t, ht, hn, ?_, ?_⟩
    · by_cases ha : p ≤ t.2.1
      · rw [if_pos ha]; omega
      · rw [if_neg ha]; omega
    · by_cases hb : p < t.2.2
      · rw [if_pos hb]; omega
      · rw [if_neg hb]; omega

/-- Coverage past the inserted span equals the shifted original
coverage. -/
theorem covers_insertAt_high {b : Buffer} {p : Nat} {cs : List Char} {n : String} {j : Nat}
    (h : p + cs.length ≤ j) :
    (b.insertAt p cs).covers n j = b.covers n (j - cs.length) := by
  apply bool_eq_of_iff
  rw [covers_insertAt_iff, covers_iff]
  constructor
  · rintro ⟨t, ht, hn, h1, h2⟩
    refine ⟨t, ht, hn, ?_, ?_⟩
    · by_cases ha : p ≤ t.2.1
      · rw [if_pos ha] at h1; omega
      · rw [if_neg ha] at h1; omega
    · by_cases hb : p < t.2.2
      · rw [if_pos hb] at h2; omega
      · rw [if_neg hb] at h2; omega
  · rintro ⟨t, ht, hn, h1, h2⟩
    refine ⟨t, ht, hn, ?_, ?_⟩
    · by_cases ha : p ≤ t.2.1
      · rw [if_pos ha]; omega
      · rw [if_neg ha]; omega
    · by_cases hb : p < t.2.2
      · rw [if_pos hb]; omega
      · rw [if_neg hb]; omega

/-- Coverage after delete, unfolded over the original tag table. -/
theorem covers_deleteRange_iff (b : Buffer) (s e : Nat) (n : String) (i : Nat) :
    (b.deleteRange s e).covers n i = true ↔
      ∃ t ∈ b.tags, t.1 = n ∧
        (if t.2.1 ≤ s then t.2.1 else if t.2.1 ≤ e then s else t.2.1 - (e - s)) ≤ i ∧
        i < (if t.2.2 ≤ s then t.2.2 else if t.2.2 ≤ e then s else t.2.2 - (e - s)) := by
  unfold Buffer.deleteRange
  simp only [covers_iff, List.mem_filter, List.mem_map]
  constructor
  · rintro ⟨t, ⟨⟨u, hu, rfl⟩, _⟩, hn, h1, h2⟩
    exact ⟨u, hu, hn, h1, h2⟩
  · rintro ⟨u, hu, hn, h1, h2⟩
    refine ⟨_, ⟨⟨u, hu, rfl⟩, ?_⟩, hn, h1, h2⟩
    simp only [decide_eq_true_eq]
    omega

/-- Coverage after delete pointwise: positions before the deleted span
keep their coverage, later positions take the coverage shifted past the
span. -/
theorem covers_deleteRange_pt {b : Buffer} {s e : Nat} (n : String) (i : Nat)
    (hse : s ≤ e) :
    (b.deleteRange s e).covers n i =
      (if i < s then b.covers n i else b.covers n (i + (e - s))) := by
  apply bool_eq_of_iff
  rw [covers_deleteRange_iff]
  by_cases hi : i < s
  · rw [if_pos hi, covers_iff]
    constructor
    · rintro ⟨t, ht, hn, h1, h2⟩
      refine ⟨t, ht, hn, ?_, ?_⟩
      · by_cases ha1 : t.2.1 ≤ s
        · rw [if_pos ha1] at h1; omega
        · rw [if_neg ha1] at h1
          by_cases ha2 : t.2.1 ≤ e
          · rw [if_pos ha2] at h1; omega
          · rw [if_neg ha2] at h1; omega
      · by_cases hb1 : t.2.2 ≤ s
        · rw [if_pos hb1] at h2; omega
        · rw [if_neg hb1] at h2
          by_cases hb2 : t.2.2 ≤ e
          · rw [if_pos hb2] at h2; omega
          · rw [if_neg hb2] at h2; omega
    · rintro ⟨t, ht, hn, h1, h2⟩
      refine ⟨t, ht, hn, ?_, ?_⟩
      · by_cases ha1 : t.2.1 ≤ s
        · rw [if_pos ha1]; omega
        · rw [if_neg ha1]
          by_cases ha2 : t.2.1 ≤ e
          · rw [if_pos ha2]; omega
          · rw [if_neg ha2]; omega
      · by_cases hb1 : t.2.2 ≤ s
        · rw [if_pos hb1]; omega
        · rw [if_neg hb1]
          by_cases hb2 : t.2.2 ≤ e
          · rw [if_pos hb2]; omega
          · rw [if_neg hb2]; omega
  · rw [if_neg hi, covers_iff]
    constructor
    · rintro ⟨t, ht, hn, h1, h2⟩
      refine ⟨t, ht, hn, ?_, ?_⟩
      · by_cases ha1 : t.2.1 ≤ s
        · rw [if_pos ha1] at h1; omega
        · rw [if_neg ha1] at h1
          by_cases ha2 : t.2.1 ≤ e
          · rw [if_pos ha2] at h1; omega
          · rw [if_neg ha2] at h1; omega
      · by_cases hb1 : t.2.2 ≤ s
        · rw [if_pos hb1] at h2; omega
        · rw [if_neg hb1] at h2
          by_cases hb2 : t.2.2 ≤ e
          · rw [if_pos hb2] at h2; omega
          · rw [if_neg hb2] at h2; omega
    · rintro ⟨t, ht, hn, h1, h2⟩
      refine ⟨t, ht, hn, ?_, ?_⟩
      · by_cases ha1 : t.2.1 ≤ s
        · rw [if_pos ha1]; omega
        · rw [if_neg ha1]
          by_cases ha2 : t.2.1 ≤ e
          · rw [if_pos ha2]; omega
          · rw [if_neg ha2]; omega
      · by_cases hb1 : t.2.2 ≤ s
        · rw [if_pos hb1]; omega
        · rw [if_neg hb1]
          by_cases hb2 : t.2.2 ≤ e
          · rw [if_pos hb2]; omega
          · rw [if_neg hb2]; omega

-- ── Line structure lemmas ──────────────────────────────────────────

/-- The line-start scanner never moves backwards. -/
theorem lineStartGo_ge {t : List Char} {l a v : Nat}
    (h : lineStartGo t l a = some v) : a ≤ v := by
  induction t generalizing l a with
  | nil =>
    cases l with
    | zero => simp [lineStartGo] at h; omega
    | succ l => simp [lineStartGo] at h
  | cons x xs ih =>
    cases l with
    | zero => simp [lineStartGo] at h; omega
    | succ l =>
      rw [lineStartGo] at h
      split at h
      · have := ih h; omega
      · have := ih h; omega

/-- The line start found in a text is found in any extension of the
prefix scanned up to it. -/
theorem lineStartGo_take {t : List Char} {l a v : Nat}
    (h : lineStartGo t l a = some v) (t2 : List Char) :
    lineStartGo (t.take (v - a) ++ t2) l a = some v := by
  induction t generalizing l a with
  | nil =>
    cases l with
    | zero => simp [lineStartGo] at h ⊢; omega
    | succ l => simp [lineStartGo] at h
  | cons x xs ih =>
    cases l with
    | zero =>
      simp only [lineStartGo, Option.some_inj] at h
      subst h
      simp [lineStartGo]
    | succ l =>
      rw [lineStartGo] at h
      split at h
      · have hge := lineStartGo_ge h
        have hv : v - a = (v - (a + 1)) + 1 := by omega
        rw [hv, List.take_succ_cons, List.cons_append, lineStartGo]
        rw [if_pos (by assumption)]
        exact ih h
      · have hge := lineStartGo_ge h
        have hv : v - a = (v - (a + 1)) + 1 := by omega
        rw [hv, List.take_succ_cons, List.cons_append, lineStartGo]
        rw [if_neg (by assumption)]
        exact ih h

/-- The line containing an offset has a start, at or before the offset
and within the text. -/
theorem lineStart_exists (t : List Char) (c : Nat) :
    ∃ u, lineStartOff t (lineOf t c) = some u ∧ u ≤ c ∧ u ≤ t.length := by
  unfold lineStartOff lineOf
  suffices h : ∀ (t : List Char) (c a : Nat),
      ∃ u, lineStartGo t (((t.take c).filter (fun ch => ch == '\n')).length) a = some (a + u) ∧
        u ≤ c ∧ u ≤ t.length by
    rcases h t c 0 with ⟨u, h1, h2, h3⟩
    exact ⟨u, by simpa using h1, h2, h3⟩
  intro t
  induction t with
  | nil =>
    intro c a
    exact ⟨0, by simp [lineStartGo], by omega, by omega⟩
  | cons x xs ih =>
    intro c a
    cases c with
    | zero => exact ⟨0, by simp [lineStartGo], by omega, by omega⟩
    | succ c2 =>
      by_cases hx : x = '\n'
      · subst hx
        rcases ih c2 (a + 1) with ⟨u, h1, h2, h3⟩
        refine ⟨u + 1, ?_, by omega, by simp; omega⟩
        rw [List.take_succ_cons, List.filter_cons]
        simp only [show (('\n' : Char) == '\n') = true by decide, if_true, List.length_cons]
        rw [lineStartGo]
        rw [if_pos (by decide)]
        have : a + (u + 1) = (a + 1) + u := by omega
        rw [this]
        exact h1
      · rcases ih c2 (a + 1) with ⟨u, h1, h2, h3⟩
        rw [List.take_succ_cons, List.filter_cons]
        have hxe : (x == '\n') = false := by
          simp [hx]
        rw [hxe]
        simp only [Bool.false_eq_true, if_false]
        cases hl : ((xs.take c2).filter (fun ch => ch == '\n')).length with
        | zero =>
          refine ⟨0, ?_, by omega, by omega⟩
          simp [lineStartGo]
        | succ l2 =>
          rw [hl] at h1
          refine ⟨u + 1, ?_, by omega, by simp; omega⟩
          rw [lineStartGo]
          rw [if_neg (by simp [hx])]
          have : a + (u + 1) = (a + 1) + u := by omega
          rw [this]
          exact h1

/-- takeWhile skips over a fully satisfying chunk. -/
theorem takeWhile_append_all {p : Char → Bool} {xs : List Char} (ys : List Char)
    (h : xs.all p = true) : (xs ++ ys).takeWhile p = xs ++ ys.takeWhile p := by
  induction xs with
  | nil => simp
  | cons x xs ih =>
    simp only [List.all_cons, Bool.and_eq_true] at h
    simp only [List.cons_append, List.takeWhile_cons, h.1, if_true]
    rw [ih h.2]

/-- Dropping the inserted span from the insertion result. -/
theorem drop_insert_eq (text mark : List Char) (ls : Nat) (hlen : ls ≤ text.length) :
    (text.take ls ++ mark ++ text.drop ls).drop ls = mark ++ text.drop ls := by
  rw [List.append_assoc]
  have hl : (text.take ls).length = ls := by
    rw [List.length_take]
    omega
  calc (text.take ls ++ (mark ++ text.drop ls)).drop ls
      = (text.take ls ++ (mark ++ text.drop ls)).drop (text.take ls).length := by rw [hl]
    _ = mark ++ text.drop ls := List.drop_left _ _

/-- Taking up to the insertion point from the insertion result. -/
theorem take_insert_eq (text mark : List Char) (ls : Nat) (hlen : ls ≤ text.length) :
    (text.take ls ++ mark ++ text.drop ls).take ls = text.take ls := by
  rw [List.append_assoc]
  have hl : (text.take ls).length = ls := by
    rw [List.length_take]
    omega
  calc (text.take ls ++ (mark ++ text.drop ls)).take ls
      = (text.take ls ++ (mark ++ text.drop ls)).take (text.take ls).length := by rw [hl]
    _ = text.take ls := List.take_left _ _

/-- Line end after inserting newline-free text at the line start. -/
theorem lineEndOff_insert (text mark : List Char) (ls : Nat) (hlen : ls ≤ text.length)
    (hnl : mark.all (fun c => c != '\n') = true) :
    lineEndOff (text.take ls ++ mark ++ text.drop ls) ls =
      lineEndOff text ls + mark.length := by
  unfold lineEndOff
  rw [drop_insert_eq text mark ls hlen, takeWhile_append_all _ hnl]
  rw [List.length_append]
  omega

/-- Line number of a shifted offset after inserting newline-free text at
or before it. -/
theorem lineOf_insert (text mark : List Char) (ls c : Nat) (hlen : ls ≤ text.length)
    (hlsc : ls ≤ c) (hnl : mark.all (fun ch => ch != '\n') = true) :
    lineOf (text.take ls ++ mark ++ text.drop ls) (c + mark.length) = lineOf text c := by
  unfold lineOf
  have hfm : mark.filter (fun ch => ch == '\n') = [] := by
    rw [List.filter_eq_nil_iff]
    intro a ha
    have := (List.all_eq_true.mp hnl) a ha
    simpa using this
  have hl : (text.take ls).length = ls := by rw [List.length_take]; omega
  have h1 : (text.take ls ++ mark ++ text.drop ls).take (c + mark.length) =
      (text.take ls ++ mark) ++ (text.drop ls).take (c - ls) := by
    show ((text.take ls ++ mark) ++ text.drop ls).take (c + mark.length) = _
    rw [List.take_append_eq_append_take]
    have hle1 : (text.take ls ++ mark).length ≤ c + mark.length := by
      rw [List.length_append, hl]
      omega
    rw [List.take_of_length_le hle1]
    have harith : c + mark.length - (text.take ls ++ mark).length = c - ls := by
      rw [List.length_append, hl]
      omega
    rw [harith]
  have h2 : text.take c = text.take ls ++ (text.drop ls).take (c - ls) := by
    conv_lhs => rw [← List.take_append_drop ls text]
    rw [List.take_append_eq_append_take]
    have hle2 : (text.take ls).length ≤ c := by
      rw [hl]
      omega
    rw [List.take_of_length_le hle2, hl]
  rw [show text.take ls ++ mark ++ text.drop ls = (text.take ls ++ mark) ++ text.drop ls
    from rfl] at h1
  rw [h1, h2]
  simp only [List.filter_append, List.length_append, hfm]
  simp

-- ── Claim C8: toggle_list round trip ───────────────────────────────

/-- Text of the insert, tag, untag, delete pipeline is the original
text. -/
theorem toggle_pipeline_text (b : Buffer) (ls le k : Nat) (kind : String)
    (mark : List Char) (hmk : mark.length = k) (hlen : ls ≤ b.text.length) :
    ((((b.insertAt ls mark).applyTag kind ls (le + k)).removeTag kind ls
        (le + k)).deleteRange ls (ls + k)).text = b.text := by
  show ((b.insertAt ls mark).text.take ls ++ (b.insertAt ls mark).text.drop (ls + k)) = b.text
  show ((b.text.take ls ++ mark ++ b.text.drop ls).take ls ++
    (b.text.take ls ++ mark ++ b.text.drop ls).drop (ls + k)) = b.text
  rw [take_insert_eq _ _ _ hlen]
  have hdrop : (b.text.take ls ++ mark ++ b.text.drop ls).drop (ls + k) = b.text.drop ls := by
    show ((b.text.take ls ++ mark) ++ b.text.drop ls).drop (ls + k) = b.text.drop ls
    have hl : (b.text.take ls ++ mark).length = ls + k := by
      rw [List.length_append, List.length_take, hmk]
      omega
    calc ((b.text.take ls ++ mark) ++ b.text.drop ls).drop (ls + k)
        = ((b.text.take ls ++ mark) ++ b.text.drop ls).drop
            (b.text.take ls ++ mark).length := by rw [hl]
      _ = b.text.drop ls := List.drop_left _ _
  rw [hdrop, List.take_append_drop]

/-- Coverage through the insert, tag, untag, delete pipeline is the
original coverage, for a kind with no coverage on the target line. -/
theorem toggle_pipeline_coverage (b : Buffer) (ls le k : Nat) (kind : String)
    (mark : List Char) (hmk : mark.length = k) (hk : 0 < k) (hle : ls ≤ le)
    (hcov : ∀ i, ls ≤ i → i < le → b.covers kind i = false) (n : String) (i : Nat) :
    ((((b.insertAt ls mark).applyTag kind ls (le + k)).removeTag kind ls
        (le + k)).deleteRange ls (ls + k)).covers n i = b.covers n i := by
  rw [covers_deleteRange_pt n i (by omega : ls ≤ ls + k)]
  by_cases hi : i < ls
  · rw [if_pos hi]
    apply bool_eq_of_iff
    rw [covers_removeTag_iff, covers_applyTag_iff]
    constructor
    · rintro ⟨hc | ⟨rfl, h1, h2⟩, hno⟩
      · rw [covers_insertAt_low hi] at hc
        exact hc
      · omega
    · intro hc
      refine ⟨Or.inl ?_, ?_⟩
      · rw [covers_insertAt_low hi]
        exact hc
      · rintro ⟨rfl, h1, h2⟩
        omega
  · rw [if_neg hi]
    have hik : i + (ls + k - ls) = i + k := by omega
    rw [hik]
    apply bool_eq_of_iff
    rw [covers_removeTag_iff, covers_applyTag_iff]
    have hhigh : (b.insertAt ls mark).covers n (i + k) = b.covers n i := by
      rw [covers_insertAt_high (by omega : ls + mark.length ≤ i + k)]
      have : i + k - mark.length = i := by omega
      rw [this]
    constructor
    · rintro ⟨hc | ⟨rfl, h1, h2⟩, hno⟩
      · rw [hhigh] at hc
        exact hc
      · exact absurd ⟨rfl, by omega, by omega⟩ hno
    · intro hc
      by_cases hkd : n = kind
      · subst hkd
        by_cases hile : i < le
        · rw [hcov i (by omega) hile] at hc
          cases hc
        · refine ⟨Or.inl ?_, ?_⟩
          · rw [hhigh]
            exact hc
          · rintro ⟨_, _, h2⟩
            omega
      · refine ⟨Or.inl ?_, ?_⟩
        · rw [hhigh]
          exact hc
        · rintro ⟨heq, _, _⟩
          exact hkd heq

/-- Marker count of a line beginning with the bullet marker. -/
theorem countListMark_bullet (orig : List Char) :
    countListMarkChars (bulletMark ++ orig) = 4 := by
  unfold countListMarkChars
  rw [if_pos (List.isPrefixOf_iff_prefix.mpr (List.prefix_append _ _))]

/-- Marker count of a line beginning with the first numbered marker. -/
theorem countListMark_numbered (orig : List Char) :
    countListMarkChars (chars "  1. " ++ orig) = 5 := by
  have hshape : chars "  1. " ++ orig = ' ' :: ' ' :: '1' :: '.' :: ' ' :: orig := rfl
  unfold countListMarkChars
  have hnb : bulletMark.isPrefixOf (chars "  1. " ++ orig) = false := by
    rw [hshape]
    show List.isPrefixOf [' ', ' ', '•', ' '] (' ' :: ' ' :: '1' :: '.' :: ' ' :: orig) = false
    simp [List.isPrefixOf]
  rw [hnb]
  simp only [Bool.false_eq_true, if_false]
  rw [hshape]
  have hdw : (' ' :: ' ' :: '1' :: '.' :: ' ' :: orig).dropWhile isWsChar =
      '1' :: '.' :: ' ' :: orig := by
    rw [List.dropWhile_cons, List.dropWhile_cons, List.dropWhile_cons]
    simp [isWsChar]
  rw [hdw]
  have hfd : findDotSpace ('1' :: '.' :: ' ' :: orig) = some 1 := by
    rw [findDotSpace_step (by decide)]
    rw [findDotSpace]
    simp
  rw [hfd]
  simp only [List.take_succ_cons, List.take_zero, List.all_cons, List.all_nil]
  rw [if_pos (by decide : (('1' : Char).isDigit && true && decide ((1:Nat) ≤ 4)) = true)]
  simp only [List.length_cons]
  omega

/-- Slice of a line after inserting a marker at its start. -/
theorem sliceText_insert (text mark : List Char) (ls le : Nat)
    (hlen : ls ≤ text.length) (hle : ls ≤ le) :
    sliceText (text.take ls ++ mark ++ text.drop ls) ls (le + mark.length) =
      mark ++ sliceText text ls le := by
  unfold sliceText
  rw [drop_insert_eq text mark ls hlen]
  rw [List.take_append_eq_append_take]
  rw [List.take_of_length_le (by omega : mark.length ≤ le + mark.length - ls)]
  have harith : le + mark.length - ls - mark.length = le - ls := by omega
  rw [harith]

/-- toggleList on an untagged line inserts the bullet marker and tags
the grown line. -/
theorem toggleList_bullet_apply (b : Buffer) {ls : Nat}
    (hls : lineStartOff b.text (lineOf b.text b.cursor) = some ls)
    (hlen : ls ≤ b.text.length)
    (hnb : b.hasTagInRange "bullet-list" ls (lineEndOff b.text ls) = false)
    (hnn : b.hasTagInRange "numbered-list" ls (lineEndOff b.text ls) = false) :
    toggleList b "bullet-list" =
      (b.insertAt ls bulletMark).applyTag "bullet-list" ls (lineEndOff b.text ls + 4) := by
  have htxt : (b.insertAt ls bulletMark).text = b.text.take ls ++ bulletMark ++ b.text.drop ls :=
    rfl
  have hls2 : lineStartOff (b.insertAt ls bulletMark).text (lineOf b.text b.cursor) =
      some ls := by
    rw [htxt]
    have h := lineStartGo_take hls (bulletMark ++ b.text.drop ls)
    simpa [lineStartOff, List.append_assoc] using h
  have hle2 : lineEndOff (b.insertAt ls bulletMark).text ls = lineEndOff b.text ls + 4 := by
    rw [htxt, lineEndOff_insert _ _ _ hlen (by decide)]
    rfl
  simp only [toggleList]
  rw [hls]
  simp only [Option.getD_some]
  rw [hnb]
  simp only [Bool.false_eq_true, if_false, beq_self_eq_true, if_true]
  rw [hnn]
  simp only [Bool.false_eq_true, if_false]
  rw [hls2]
  simp only [Option.getD_some]
  rw [hle2]

/-- toggleList on the line just tagged and marked removes the tag and
the bullet marker again. -/
theorem toggleList_bullet_remove (b : Buffer) {ls : Nat}
    (hls : lineStartOff b.text (lineOf b.text b.cursor) = some ls)
    (hlen : ls ≤ b.text.length) (hlsc : ls ≤ b.cursor) :
    toggleList ((b.insertAt ls bulletMark).applyTag "bullet-list" ls
      (lineEndOff b.text ls + 4)) "bullet-list" =
      (((b.insertAt ls bulletMark).applyTag "bullet-list" ls
        (lineEndOff b.text ls + 4)).removeTag "bullet-list" ls
          (lineEndOff b.text ls + 4)).deleteRange ls (ls + 4) := by
  set le := lineEndOff b.text ls with hledef
  set B1 := (b.insertAt ls bulletMark).applyTag "bullet-list" ls (le + 4) with hB1
  have htxt : B1.text = b.text.take ls ++ bulletMark ++ b.text.drop ls := rfl
  have hcur : B1.cursor = b.cursor + 4 := by
    show (if ls ≤ b.cursor then b.cursor + bulletMark.length else b.cursor) = b.cursor + 4
    rw [if_pos hlsc]
    rfl
  have hline : lineOf B1.text B1.cursor = lineOf b.text b.cursor := by
    rw [htxt, hcur]
    exact lineOf_insert b.text bulletMark ls b.cursor hlen hlsc (by decide)
  have hls2 : lineStartOff B1.text (lineOf B1.text B1.cursor) = some ls := by
    rw [hline, htxt]
    have h := lineStartGo_take hls (bulletMark ++ b.text.drop ls)
    simpa [lineStartOff, List.append_assoc] using h
  have hle2 : lineEndOff B1.text ls = le + 4 := by
    rw [htxt, hledef]
    exact lineEndOff_insert _ _ _ hlen (by decide)
  have hlsle : ls ≤ le := by
    rw [hledef]
    unfold lineEndOff
    omega
  have hhas : B1.hasTagInRange "bullet-list" ls (le + 4) = true := by
    apply (hasTagInRange_iff _ _ _ _).mpr
    refine ⟨ls, le_refl _, by omega, ?_⟩
    exact (covers_applyTag_iff _ _ _ _ _ _).mpr (Or.inr ⟨rfl, le_refl _, by omega⟩)
  have hslice : sliceText B1.text ls (le + 4) = bulletMark ++ sliceText b.text ls le := by
    rw [htxt]
    have h := sliceText_insert b.text bulletMark ls le hlen hlsle
    simpa using h
  have hcount : countListMarkChars (sliceText B1.text ls (le + 4)) = 4 := by
    rw [hslice]
    exact countListMark_bullet _
  simp only [toggleList]
  rw [hls2]
  simp only [Option.getD_some]
  rw [hle2, hhas]
  simp only [if_true]
  have hrmtext : (B1.removeTag "bullet-list" ls (le + 4)).text = B1.text := rfl
  rw [hrmtext, hcount]
  simp only [show ((4:Nat) > 0) = True by simp, if_true]

/-- toggleList on an untagged line inserts the numbered marker and tags
the grown line. -/
theorem toggleList_numbered_apply (b : Buffer) {ls : Nat}
    (hls : lineStartOff b.text (lineOf b.text b.cursor) = some ls)
    (hlen : ls ≤ b.text.length)
    (hnb : b.hasTagInRange "bullet-list" ls (lineEndOff b.text ls) = false)
    (hnn : b.hasTagInRange "numbered-list" ls (lineEndOff b.text ls) = false) :
    toggleList b "numbered-list" =
      (b.insertAt ls (chars "  1. ")).applyTag "numbered-list" ls
        (lineEndOff b.text ls + 5) := by
  have htxt : (b.insertAt ls (chars "  1. ")).text =
      b.text.take ls ++ chars "  1. " ++ b.text.drop ls := rfl
  have hls2 : lineStartOff (b.insertAt ls (chars "  1. ")).text (lineOf b.text b.cursor) =
      some ls := by
    rw [htxt]
    have h := lineStartGo_take hls (chars "  1. " ++ b.text.drop ls)
    simpa [lineStartOff, List.append_assoc] using h
  have hle2 : lineEndOff (b.insertAt ls (chars "  1. ")).text ls =
      lineEndOff b.text ls + 5 := by
    rw [htxt, lineEndOff_insert _ _ _ hlen (by decide)]
    rfl
  have hneq : (("numbered-list" : String) == "bullet-list") = false := by decide
  simp only [toggleList]
  rw [hls]
  simp only [Option.getD_some]
  rw [hnn]
  simp only [Bool.false_eq_true, if_false, hneq]
  rw [hnb]
  simp only [Bool.false_eq_true, if_false]
  rw [hls2]
  simp only [Option.getD_some]
  rw [hle2]

/-- toggleList on the line just tagged and marked removes the tag and
the numbered marker again. -/
theorem toggleList_numbered_remove (b : Buffer) {ls : Nat}
    (hls : lineStartOff b.text (lineOf b.text b.cursor) = some ls)
    (hlen : ls ≤ b.text.length) (hlsc : ls ≤ b.cursor) :
    toggleList ((b.insertAt ls (chars "  1. ")).applyTag "numbered-list" ls
      (lineEndOff b.text ls + 5)) "numbered-list" =
      (((b.insertAt ls (chars "  1. ")).applyTag "numbered-list" ls
        (lineEndOff b.text ls + 5)).removeTag "numbered-list" ls
          (lineEndOff b.text ls + 5)).deleteRange ls (ls + 5) := by
  set le := lineEndOff b.text ls with hledef
  set B1 := (b.insertAt ls (chars "  1. ")).applyTag "numbered-list" ls (le + 5) with hB1
  have htxt : B1.text = b.text.take ls ++ chars "  1. " ++ b.text.drop ls := rfl
  have hcur : B1.cursor = b.cursor + 5 := by
    show (if ls ≤ b.cursor then b.cursor + (chars "  1. ").length else b.cursor) =
      b.cursor + 5
    rw [if_pos hlsc]
    rfl
  have hline : lineOf B1.text B1.cursor = lineOf b.text b.cursor := by
    rw [htxt, hcur]
    exact lineOf_insert b.text (chars "  1. ") ls b.cursor hlen hlsc (by decide)
  have hls2 : lineStartOff B1.text (lineOf B1.text B1.cursor) = some ls := by
    rw [hline, htxt]
    have h := lineStartGo_take hls (chars "  1. " ++ b.text.drop ls)
    simpa [lineStartOff, List.append_assoc] using h
  have hle2 : lineEndOff B1.text ls = le + 5 := by
    rw [htxt, hledef]
    exact lineEndOff_insert _ _ _ hlen (by decide)
  have hlsle : ls ≤ le := by
    rw [hledef]
    unfold lineEndOff
    omega
  have hhas : B1.hasTagInRange "numbered-list" ls (le + 5) = true := by
    apply (hasTagInRange_iff _ _ _ _).mpr
    refine ⟨ls, le_refl _, by omega, ?_⟩
    exact (covers_applyTag_iff _ _ _ _ _ _).mpr (Or.inr ⟨rfl, le_refl _, by omega⟩)
  have hslice : sliceText B1.text ls (le + 5) = chars "  1. " ++ sliceText b.text ls le := by
    rw [htxt]
    have h := sliceText_insert b.text (chars "  1. ") ls le hlen hlsle
    simpa using h
  have hcount : countListMarkChars (sliceText B1.text ls (le + 5)) = 5 := by
    rw [hslice]
    exact countListMark_numbered _
  simp only [toggleList]
  rw [hls2]
  simp only [Option.getD_some]
  rw [hle2, hhas]
  simp only [if_true]
  have hrmtext : (B1.removeTag "numbered-list" ls (le + 5)).text = B1.text := rfl
  rw [hrmtext, hcount]
  simp only [show ((5:Nat) > 0) = True by simp, if_true]

/-- Claim C8: toggling a list twice with the same kind on a plain
paragraph line restores the text and the tag coverage exactly. -/
theorem c8_toggle_list_roundtrip (b : Buffer) (kind : String)
    (hkind : kind = "bullet-list" ∨ kind = "numbered-list")
    (hnb : b.hasTagInRange "bullet-list" (cursorLineStart b) (cursorLineEnd b) = false)
    (hnn : b.hasTagInRange "numbered-list" (cursorLineStart b) (cursorLineEnd b) = false)
    (hmark : countListMarkChars (sliceText b.text (cursorLineStart b) (cursorLineEnd b)) = 0) :
    (toggleList (toggleList b kind) kind).text = b.text ∧
    ∀ n i, (toggleList (toggleList b kind) kind).covers n i = b.covers n i := by
  rcases lineStart_exists b.text b.cursor with ⟨ls, hls, hlsc, hlen⟩
  have hcls : cursorLineStart b = ls := by
    unfold cursorLineStart
    rw [hls]
    rfl
  have hcle : cursorLineEnd b = lineEndOff b.text ls := by
    unfold cursorLineEnd
    rw [hcls]
  rw [hcls, hcle] at hnb hnn hmark
  have hcovk : ∀ kd, b.hasTagInRange kd ls (lineEndOff b.text ls) = false →
      ∀ i, ls ≤ i → i < lineEndOff b.text ls → b.covers kd i = false := by
    intro kd h i h1 h2
    cases hcv : b.covers kd i with
    | false => rfl
    | true =>
      have h3 := (hasTagInRange_iff b kd ls (lineEndOff b.text ls)).mpr ⟨i, h1, h2, hcv⟩
      rw [h] at h3
      cases h3
  rcases hkind with rfl | rfl
  · rw [toggleList_bullet_apply b hls hlen hnb hnn,
      toggleList_bullet_remove b hls hlen hlsc]
    refine ⟨?_, ?_⟩
    · exact toggle_pipeline_text b ls (lineEndOff b.text ls) 4 "bullet-list" bulletMark
        (by decide) hlen
    · intro n i
      exact toggle_pipeline_coverage b ls (lineEndOff b.text ls) 4 "bullet-list" bulletMark
        (by decide) (by omega) (by unfold lineEndOff; omega) (hcovk _ hnb) n i
  · rw [toggleList_numbered_apply b hls hlen hnb hnn,
      toggleList_numbered_remove b hls hlen hlsc]
    refine ⟨?_, ?_⟩
    · exact toggle_pipeline_text b ls (lineEndOff b.text ls) 5 "numbered-list" (chars "  1. ")
        (by decide) hlen
    · intro n i
      exact toggle_pipeline_coverage b ls (lineEndOff b.text ls) 5 "numbered-list"
        (chars "  1. ") (by decide) (by omega) (by unfold lineEndOff; omega)
        (hcovk _ hnn) n i

/-- Witness for claim C8 at a concrete input: a bold-tagged plain line
survives a double bullet toggle unchanged. -/
theorem c8_toggle_list_roundtrip_witness :
    (toggleList (toggleList { text := chars "hi", tags := [("bold", 0, 2)], cursor := 0 }
      "bullet-list") "bullet-list").text = chars "hi" ∧
    (toggleList (toggleList { text := chars "hi", tags := [("bold", 0, 2)], cursor := 0 }
      "bullet-list") "bullet-list").covers "bold" 1 =
      Buffer.covers { text := chars "hi", tags := [("bold", 0, 2)], cursor := 0 } "bold" 1 := by
  have h := c8_toggle_list_roundtrip
    { text := chars "hi", tags := [("bold", 0, 2)], cursor := 0 } "bullet-list"
    (Or.inl rfl) (by decide) (by decide) (by decide)
  exact ⟨h.1, h.2 "bold" 1⟩

-- ── Decimal rendering facts ────────────────────────────────────────

/-- Digit characters below base ten are ASCII digits. -/
theorem digitChar_isDigit (m : Nat) (h : m < 10) : (Nat.digitChar m).isDigit = true := by
  interval_cases m <;> decide

/-- The digit expansion adds only ASCII digits. -/
theorem toDigitsCore_all_digits (fuel : Nat) : ∀ (n : Nat) (ds : List Char),
    ds.all (fun c => c.isDigit) = true →
    (Nat.toDigitsCore 10 fuel n ds).all (fun c => c.isDigit) = true := by
  induction fuel with
  | zero =>
    intro n ds hds
    simpa [Nat.toDigitsCore] using hds
  | succ f ih =>
    intro n ds hds
    simp only [Nat.toDigitsCore]
    split
    · simp only [List.all_cons, Bool.and_eq_true]
      exact ⟨digitChar_isDigit _ (Nat.mod_lt _ (by omega)), hds⟩
    · apply ih
      simp only [List.all_cons, Bool.and_eq_true]
      exact ⟨digitChar_isDigit _ (Nat.mod_lt _ (by omega)), hds⟩

/-- Characters of a rendered integer are digits or the minus sign. -/
theorem intToString_digits (n : Int) :
    (chars (toString n)).all (fun c => c.isDigit || c == '-') = true := by
  have hmono : ∀ l : List Char, l.all (fun c => c.isDigit) = true →
      l.all (fun c => c.isDigit || c == '-') = true := by
    intro l hl
    apply List.all_eq_true.mpr
    intro c hc
    have := List.all_eq_true.mp hl c hc
    simp only [Bool.or_eq_true]
    exact Or.inl this
  cases n with
  | ofNat m =>
    show (Nat.toDigits 10 m).all (fun c => c.isDigit || c == '-') = true
    exact hmono _ (toDigitsCore_all_digits (m + 1) m [] (by decide))
  | negSucc m =>
    show (('-' :: Nat.toDigits 10 (m + 1)).all (fun c => c.isDigit || c == '-')) = true
    simp only [List.all_cons, Bool.and_eq_true]
    refine ⟨by decide, hmono _ (toDigitsCore_all_digits (m + 2) (m + 1) [] (by decide))⟩

/-- A rendered integer contains no newline character. -/
theorem intToString_no_nl (n : Int) :
    (chars (toString n)).all (fun c => c != '\n') = true := by
  apply List.all_eq_true.mpr
  intro c hc
  have h := List.all_eq_true.mp (intToString_digits n) c hc
  simp only [Bool.or_eq_true] at h
  simp only [bne_iff_ne, ne_eq]
  intro hEq
  subst hEq
  rcases h with h | h
  · exact absurd h (by decide)
  · exact absurd h (by decide)

-- ── Claim C5: Enter-key handling ───────────────────────────────────

/-- One part of splitting a style string at every semicolon, mirroring
str::split of the Rust code. -/
def splitSemi : List Char → List (List Char)
  | [] => [[]]
  | c :: rest =>
    let r := splitSemi rest
    if c = ';' then [] :: r
    else
      match r with
      | h :: t => (c :: h) :: t
      | [] => [[c]]

/-- strip_prefix of Rust str: the remainder when the pattern is a prefix. -/
def stripPre (p s : List Char) : Option (List Char) :=
  if p.isPrefixOf s then some (s.drop p.length) else none

/-- Scan of the style parts done by parse_style_color. -/
def parseStyleColorGo : List (List Char) → Option String
  | [] => none
  | part :: rest =>
    let p := trimChars part
    match stripPre (chars "color:") p with
    | some v => some ("fg::" ++ String.mk (trimChars v))
    | none =>
      match stripPre (chars "background-color:") p with
      | some v => some ("bg::" ++ String.mk (trimChars v))
      | none => parseStyleColorGo rest

/-- parse_style_color of rich_editor.rs: first color / background-color
entry of a style attribute, as a fg:: / bg:: tag name. -/
def parseStyleColor (style : List Char) : Option String :=
  parseStyleColorGo (splitSemi style)

/-- HtmlToken of rich_editor.rs: the token stream the html5ever sink
collects before deserialize_html processes it. -/
inductive HtmlTok where
  | startTag (name : String) (attrs : List (String × String))
  | endTag (name : String)
  | text (s : String)

/-- State threaded through the token loop of deserialize_html: the
buffer, the open-tag stack (name, attrs, start offset), the list
context and ol counters, the two block flags, and the image map. -/
structure DeserState where
  buf : Buffer
  tagStack : List (String × List (String × String) × Nat)
  listCtx : List String
  olCounter : List Int
  needNl : Bool
  inBlock : Bool
  imageMap : List (Nat × String × Int)

/-- Insertion at the buffer's end iterator: appends text, leaving tags
and cursor alone. -/
def appendEnd (b : Buffer) (cs : List Char) : Buffer :=
  { b with text := b.text ++ cs }

/-- Lookup of an attribute value by name, as attrs.iter().find does. -/
def getAttr (k : String) (attrs : List (String × String)) : Option String :=
  (attrs.find? (fun kv => kv.1 = k)).map (fun kv => kv.2)

/-- Removal of the most recently pushed stack entry with the given name,
mirroring rposition plus remove on the Vec (our list head is the top). -/
def removeFirstTag (name : String) :
    List (String × List (String × String) × Nat) →
    Option ((String × List (String × String) × Nat) ×
      List (String × List (String × String) × Nat))
  | [] => none
  | e :: rest =>
    if e.1 = name then some (e, rest)
    else
      match removeFirstTag name rest with
      | some (f, rest2) => some (f, e :: rest2)
      | none => none

/-- One iteration of the token loop of deserialize_html. The local
filesystem is abstracted as the predicate fs on paths playing the role
of Path::exists. -/
def deserStep (fs : String → Bool) (st : DeserState) (tok : HtmlTok) : DeserState :=
  match tok with
  | .startTag name attrs =>
    if name = "ul" then { st with listCtx := "ul" :: st.listCtx }
    else if name = "ol" then
      { st with
        listCtx := "ol" :: st.listCtx,
        olCounter := 0 :: st.olCounter }
    else if name = "li" then
      let b1 := if st.needNl then appendEnd st.buf ['\n'] else st.buf
      let bo : Buffer × List Int :=
        match st.listCtx.head? with
        | some s =>
          if s = "ul" then (appendEnd b1 bulletMark, st.olCounter)
          else if s = "ol" then
            match st.olCounter with
            | c :: rest =>
              (appendEnd b1 (chars ("  " ++ toString (c + 1) ++ ". ")), (c + 1) :: rest)
            | [] => (b1, [])
          else (b1, st.olCounter)
        | none => (b1, st.olCounter)
      { st with
        buf := bo.1,
        olCounter := bo.2,
        needNl := true,
        inBlock := true,
        tagStack := (name, attrs, bo.1.text.length) :: st.tagStack }
    else if name = "h1" ∨ name = "h2" ∨ name = "h3" ∨ name = "h4" ∨ name = "p" then
      let b1 := if st.needNl then appendEnd st.buf ['\n'] else st.buf
      { st with
        buf := b1,
        needNl := true,
        inBlock := true,
        tagStack := (name, attrs, b1.text.length) :: st.tagStack }
    else if name = "img" then
      let src := (getAttr "src" attrs).getD ""
      let width :=
        match (getAttr "width" attrs).bind (fun v => parseI32 (chars v)) with
        | some w => w
        | none => 300
      if src ≠ "" ∧ fs src then
        let b1 := appendEnd st.buf [ORC]
        { st with
          buf := b1,
          imageMap := (b1.text.length - 1, src, width) :: st.imageMap }
      else st
    else if name = "br" then { st with buf := appendEnd st.buf ['\n'] }
    else { st with tagStack := (name, attrs, st.buf.text.length) :: st.tagStack }
  | .endTag name =>
    if name = "ul" then { st with listCtx := st.listCtx.tail }
    else if name = "ol" then
      { st with
        listCtx := st.listCtx.tail,
        olCounter := st.olCounter.tail }
    else
      match removeFirstTag name st.tagStack with
      | none => st
      | some (entry, stack2) =>
        let tagName := entry.1
        let attrs := entry.2.1
        let startOff := entry.2.2
        let endOff := st.buf.text.length
        let inB :=
          if tagName = "p" ∨ tagName ∈ headingNames ∨ tagName = "li" then false
          else st.inBlock
        let st1 : DeserState :=
          { st with
            tagStack := stack2,
            inBlock := inB }
        if startOff < endOff then
          if tagName = "b" ∨ tagName = "strong" then
            { st1 with buf := st1.buf.applyTag "bold" startOff endOff }
          else if tagName = "i" ∨ tagName = "em" then
            { st1 with buf := st1.buf.applyTag "italic" startOff endOff }
          else if tagName = "u" then
            { st1 with buf := st1.buf.applyTag "underline" startOff endOff }
          else if tagName = "s" ∨ tagName = "strike" ∨ tagName = "del" then
            { st1 with buf := st1.buf.applyTag "strikethrough" startOff endOff }
          else if tagName ∈ headingNames then
            { st1 with buf := st1.buf.applyTag tagName startOff endOff }
          else if tagName = "li" then
            let listTag :=
              match st.listCtx.head? with
              | some s => if s = "ol" then "numbered-list" else "bullet-list"
              | none => "bullet-list"
            let ls := (lineStartOff st.buf.text (lineOf st.buf.text startOff)).getD startOff
            { st1 with buf := st1.buf.applyTag listTag ls endOff }
          else if tagName = "span" then
            match getAttr "style" attrs with
            | some styleVal =>
              match parseStyleColor (chars styleVal) with
              | some color => { st1 with buf := st1.buf.applyTag color startOff endOff }
              | none => st1
            | none => st1
          else if tagName = "a" then
            match getAttr "href" attrs with
            | some href =>
              let isTangle := strStarts "tangle://" href ||
                attrs.any (fun kv => decide (kv.1 = "class" ∧ kv.2 = "tangle"))
              let aTag :=
                if isTangle then
                  "tangle::" ++
                    (match stripPre (chars "tangle://") (chars href) with
                     | some v => String.mk v
                     | none => href)
                else "link::" ++ href
              { st1 with buf := st1.buf.applyTag aTag startOff endOff }
            | none => st1
          else st1
        else st1
  | .text s =>
    if s = "" then st
    else if !st.inBlock && (chars s).all isWsChar then st
    else { st with buf := appendEnd st.buf (chars s) }

/-- Start state of deserialize_html: an empty buffer and empty stacks. -/
def initialDeserState : DeserState :=
  { buf := { text := [], tags := [], cursor := 0 },
    tagStack := [],
    listCtx := [],
    olCounter := [],
    needNl := false,
    inBlock := false,
    imageMap := [] }

/-- deserialize_html: left fold of the token loop over the token list. -/
def deserializeHtml (fs : String → Bool) (toks : List HtmlTok) : DeserState :=
  toks.foldl (deserStep fs) initialDeserState

/-- insert_image_widget: returns immediately when the path does not
exist, otherwise inserts one anchor placeholder at the cursor and
records the image in the map keyed by the cursor offset. -/
def insertImageWidget (fs : String → Bool) (b : Buffer)
    (imageMap : List (Nat × String × Int)) (path : String) (width : Int) :
    Buffer × List (Nat × String × Int) :=
  if fs path then
    (b.insertAt b.cursor [ORC], (b.cursor, path, width) :: imageMap)
  else (b, imageMap)

/-- Claim C9: an img token whose src attribute is empty/missing or names
a path absent from the filesystem inserts no placeholder character and
creates no anchor entry: the processing step is the identity on the
whole deserializer state, so deleting the token from the stream gives the
same parse; likewise insert_image_widget with an absent path returns
without touching the buffer or the image map. -/
theorem c9_missing_image_silent (fs : String → Bool)
    (attrs : List (String × String))
    (hsrc : (getAttr "src" attrs).getD "" = "" ∨
      fs ((getAttr "src" attrs).getD "") = false) :
    (∀ st : DeserState, deserStep fs st (.startTag "img" attrs) = st) ∧
    (∀ toks1 toks2 : List HtmlTok,
      deserializeHtml fs (toks1 ++ HtmlTok.startTag "img" attrs :: toks2) =
        deserializeHtml fs (toks1 ++ toks2)) ∧
    (∀ (b : Buffer) (im : List (Nat × String × Int)) (path : String) (w : Int),
      fs path = false → insertImageWidget fs b im path w = (b, im)) := by
  have hstep : ∀ st : DeserState, deserStep fs st (.startTag "img" attrs) = st := by
    intro st
    simp only [deserStep]
    rw [if_neg (by decide : ¬ ("img" = "ul")), if_neg (by decide : ¬ ("img" = "ol")),
      if_neg (by decide : ¬ ("img" = "li")),
      if_neg (by decide : ¬ ("img" = "h1" ∨ "img" = "h2" ∨ "img" = "h3" ∨
        "img" = "h4" ∨ "img" = "p")),
      if_pos (trivial : True)]
    rcases hsrc with h | h
    · rw [if_neg]
      rintro ⟨hne, _⟩
      exact hne h
    · rw [if_neg]
      rintro ⟨_, hfs⟩
      rw [h] at hfs
      exact absurd hfs (by decide)
  refine ⟨hstep, ?_, ?_⟩
  · intro toks1 toks2
    unfold deserializeHtml
    rw [List.foldl_append, List.foldl_cons, hstep, ← List.foldl_append]
  · intro b im path w hp
    simp [insertImageWidget, hp]

/-- Witness for C9: with an empty filesystem, an img token for
missing.png leaves the start state untouched, and insert_image_widget
for the same path leaves a concrete buffer and empty image map alone. -/
theorem c9_missing_image_silent_witness :
    deserStep (fun _ => false) initialDeserState
        (HtmlTok.startTag "img" [("src", "missing.png")]) = initialDeserState ∧
    insertImageWidget (fun _ => false)
        { text := chars "ab", tags := [], cursor := 1 } [] "missing.png" 300 =
      ({ text := chars "ab", tags := [], cursor := 1 }, []) :=
  ⟨(c9_missing_image_silent (fun _ => false) [("src", "missing.png")]
      (Or.inr rfl)).1 initialDeserState,
    (c9_missing_image_silent (fun _ => false) [("src", "missing.png")]
      (Or.inr rfl)).2.2 _ [] "missing.png" 300 rfl⟩

/-- The double-quote character. -/
def quoteChar : Char := Char.ofNat 34

/-- One str::replace pass: every occurrence of the character becomes the
replacement string. -/
def replaceChar (c : Char) (rep : List Char) : List Char → List Char
  | [] => []
  | x :: rest => (if x = c then rep else [x]) ++ replaceChar c rep rest

/-- escape_html of rich_editor.rs: four sequential replace passes, amp
first so later passes never double-escape. -/
def escapeHtml (text : List Char) : List Char :=
  replaceChar quoteChar (chars "&quot;")
    (replaceChar '>' (chars "&gt;")
      (replaceChar '<' (chars "&lt;")
        (replaceChar '&' (chars "&amp;") text)))

/-- The block-level tag family, in the order the serializer probes it. -/
def blockTagNames : List String :=
  ["h1", "h2", "h3", "h4", "bullet-list", "numbered-list"]

/-- get_inline_tag_names: the tags present at an offset minus the block
family. -/
def inlineTagNamesAt (b : Buffer) (i : Nat) : List String :=
  (b.namesAt i).filter (fun n => decide (n ∉ blockTagNames))

/-- determine_block_tag: the first block-family tag present somewhere in
the line range. -/
def determineBlockTag (b : Buffer) (s e : Nat) : Option String :=
  blockTagNames.find? (fun n => b.hasTagInRange n s e)

/-- Character of the buffer at an offset (the serializer only reads in
range). -/
def charAt (text : List Char) (i : Nat) : Char := text.getD i ' '

/-- HashMap lookup of the image map by offset. -/
def lookupIm (im : List (Nat × String × Int)) (i : Nat) : Option (String × Int) :=
  (im.find? (fun e => decide (e.1 = i))).map (fun e => e.2)

/-- The inner segment loop of serialize_line_content: starting just past
the segment's first character, advance while the character is in range,
not an anchor placeholder, and carries the same inline tag set. -/
def segEndGo (b : Buffer) (e : Nat) (tagsHere : List String) : Nat → Nat → Nat
  | 0, i => i
  | fuel + 1, i =>
    let i2 := i + 1
    if i2 ≥ b.text.length ∨ i2 ≥ e then i2
    else if charAt b.text i2 = ORC then i2
    else if inlineTagNamesAt b i2 ≠ tagsHere then i2
    else segEndGo b e tagsHere fuel i2

/-- Open-tag markup for one inline tag name, as serialize_line_content
pushes it; block tags and unknown names produce nothing. -/
def openTagFor (n : String) : Option (List Char) :=
  if n = "bold" then some (chars "<b>")
  else if n = "italic" then some (chars "<i>")
  else if n = "underline" then some (chars "<u>")
  else if n = "strikethrough" then some (chars "<s>")
  else if strStarts "fg::" n then
    some (chars "<span style=\"color:" ++ (chars n).drop 4 ++ chars "\">")
  else if strStarts "bg::" n then
    some (chars "<span style=\"background-color:" ++ (chars n).drop 4 ++ chars "\">")
  else if strStarts "link::" n then
    some (chars "<a href=\"" ++ escapeHtml ((chars n).drop 6) ++ chars "\">")
  else if strStarts "tangle::" n then
    some (chars "<a href=\"tangle://" ++ escapeHtml ((chars n).drop 8) ++
      chars "\" class=\"tangle\">")
  else none

/-- Closing markup matched back from an open-tag string, mirroring the
reverse loop of serialize_line_content. -/
def closeFor (t : List Char) : List Char :=
  if t = chars "<b>" then chars "</b>"
  else if t = chars "<i>" then chars "</i>"
  else if t = chars "<u>" then chars "</u>"
  else if t = chars "<s>" then chars "</s>"
  else if (chars "<span").isPrefixOf t then chars "</span>"
  else if (chars "<a ").isPrefixOf t then chars "</a>"
  else []

/-- Concatenation of a list of char lists. -/
def joinList (ls : List (List Char)) : List Char := ls.foldr (· ++ ·) []

/-- The outer while loop of serialize_line_content, fuel-bounded: images
emit an img element, other characters start a maximal equal-tag segment
emitted as open tags, escaped stripped text, and closing tags. -/
def serLineGo (b : Buffer) (im : List (Nat × String × Int)) (e : Nat) :
    Nat → Nat → List Char
  | 0, _ => []
  | fuel + 1, i =>
    if i < e then
      if charAt b.text i = ORC then
        (match lookupIm im i with
         | some pw =>
           chars "<img src=\"" ++ escapeHtml (chars pw.1) ++ chars "\" width=\"" ++
             chars (toString pw.2) ++ chars "\" alt=\"image\"/>"
         | none => []) ++ serLineGo b im e fuel (i + 1)
      else
        let tagsHere := inlineTagNamesAt b i
        let segEnd0 := segEndGo b e tagsHere (e - i) i
        let segEnd := if segEnd0 > e then e else segEnd0
        let stripped := stripListMark (sliceText b.text i segEnd)
        (if stripped = [] then [] else
          let opens := tagsHere.filterMap openTagFor
          joinList opens ++ escapeHtml stripped ++
            joinList (opens.reverse.map closeFor)) ++
          serLineGo b im e fuel segEnd0
    else []

/-- serialize_line_content over the offset range of one line. -/
def serializeLineContent (b : Buffer) (im : List (Nat × String × Int))
    (s e : Nat) : List Char :=
  serLineGo b im e (e + 1 - s) s

/-- List-container markup emitted when the list context changes between
lines. -/
def serTransition (inList cur : Option String) : List Char :=
  if inList = cur then []
  else
    (match inList with
     | some p =>
       if p = "bullet-list" then chars "</ul>\n"
       else if p = "numbered-list" then chars "</ol>\n"
       else []
     | none => []) ++
    (match cur with
     | some c =>
       if c = "bullet-list" then chars "<ul>\n"
       else if c = "numbered-list" then chars "<ol>\n"
       else []
     | none => [])

/-- One line of serialize_to_html: the skip of the trailing empty line,
the list transition, and the block element wrapping the line content.
Returns the markup and the new list context. -/
def serLine (b : Buffer) (im : List (Nat × String × Int)) (n lineIdx : Nat)
    (inList : Option String) : List Char × Option String :=
  match lineStartOff b.text lineIdx with
  | none => ([], inList)
  | some ls =>
    let le := lineEndOff b.text ls
    if lineIdx = n - 1 ∧ ls = le ∧ ls = b.text.length then ([], inList)
    else
      let blockTag := determineBlockTag b ls le
      let cur : Option String :=
        match blockTag with
        | some t =>
          if t = "bullet-list" then some "bullet-list"
          else if t = "numbered-list" then some "numbered-list"
          else none
        | none => none
      let openStr :=
        match blockTag with
        | some t =>
          if t = "bullet-list" ∨ t = "numbered-list" then chars "<li>"
          else if t ∈ headingNames then chars ("<" ++ t ++ ">")
          else chars "<p>"
        | none => chars "<p>"
      let closeStr :=
        match blockTag with
        | some t =>
          if t = "bullet-list" ∨ t = "numbered-list" then chars "</li>"
          else if t ∈ headingNames then chars ("</" ++ t ++ ">")
          else chars "</p>"
        | none => chars "</p>"
      (serTransition inList cur ++ openStr ++ serializeLineContent b im ls le ++
        closeStr ++ ['\n'], cur)

/-- serialize_to_html: fold of serLine over every line index, then the
close of a list left open. -/
def serializeToHtml (b : Buffer) (im : List (Nat × String × Int)) : List Char :=
  let n := lineCount b.text
  let r := (List.range n).foldl
    (fun acc idx =>
      let p := serLine b im n idx acc.2
      (acc.1 ++ p.1, p.2))
    (([] : List Char), (none : Option String))
  r.1 ++
    (match r.2 with
     | some p =>
       if p = "bullet-list" then chars "</ul>\n"
       else if p = "numbered-list" then chars "</ol>\n"
       else []
     | none => [])

/-- Net per-character effect of the four escape passes. -/
def escMap (c : Char) : List Char :=
  if c = '&' then chars "&amp;"
  else if c = '<' then chars "&lt;"
  else if c = '>' then chars "&gt;"
  else if c = quoteChar then chars "&quot;"
  else [c]

theorem replaceChar_append (c : Char) (rep : List Char) (s t : List Char) :
    replaceChar c rep (s ++ t) = replaceChar c rep s ++ replaceChar c rep t := by
  induction s with
  | nil => rfl
  | cons x xs ih =>
    simp only [List.cons_append, replaceChar, List.append_eq, ih, List.append_assoc]

theorem escapeHtml_single (x : Char) : escapeHtml [x] = escMap x := by
  by_cases ha : x = '&'
  · subst ha
    rfl
  by_cases hl : x = '<'
  · subst hl
    rfl
  by_cases hg : x = '>'
  · subst hg
    rfl
  by_cases hq : x = quoteChar
  · subst hq
    rfl
  · simp [escapeHtml, replaceChar, escMap, ha, hl, hg, hq]

theorem escapeHtml_cons (x : Char) (t : List Char) :
    escapeHtml (x :: t) = escMap x ++ escapeHtml t := by
  have h : x :: t = [x] ++ t := rfl
  rw [h]
  show escapeHtml ([x] ++ t) = escMap x ++ escapeHtml t
  unfold escapeHtml
  rw [replaceChar_append, replaceChar_append, replaceChar_append, replaceChar_append]
  rw [show replaceChar quoteChar (chars "&quot;")
        (replaceChar '>' (chars "&gt;")
          (replaceChar '<' (chars "&lt;")
            (replaceChar '&' (chars "&amp;") [x]))) = escapeHtml [x] from rfl,
    escapeHtml_single]

theorem escMap_no_raw (x c : Char) (hc : c ∈ escMap x) :
    ¬(c = '<' ∨ c = '>' ∨ c = quoteChar) := by
  by_cases ha : x = '&'
  · subst ha
    rw [show escMap '&' = ['&', 'a', 'm', 'p', ';'] from rfl] at hc
    fin_cases hc <;> decide
  by_cases hl : x = '<'
  · subst hl
    rw [show escMap '<' = ['&', 'l', 't', ';'] from rfl] at hc
    fin_cases hc <;> decide
  by_cases hg : x = '>'
  · subst hg
    rw [show escMap '>' = ['&', 'g', 't', ';'] from rfl] at hc
    fin_cases hc <;> decide
  by_cases hq : x = quoteChar
  · subst hq
    rw [show escMap quoteChar = ['&', 'q', 'u', 'o', 't', ';'] from rfl] at hc
    fin_cases hc <;> decide
  · rw [show escMap x = if x = '&' then chars "&amp;" else if x = '<' then chars "&lt;"
        else if x = '>' then chars "&gt;" else if x = quoteChar then chars "&quot;"
        else [x] from rfl, if_neg ha, if_neg hl, if_neg hg, if_neg hq] at hc
    rw [List.mem_singleton] at hc
    subst hc
    rintro (h | h | h)
    · exact hl h
    · exact hg h
    · exact hq h

theorem escapeHtml_no_raw (t : List Char) :
    ∀ c ∈ escapeHtml t, ¬(c = '<' ∨ c = '>' ∨ c = quoteChar) := by
  induction t with
  | nil =>
    intro c hc
    rw [show escapeHtml [] = [] from rfl] at hc
    cases hc
  | cons x xs ih =>
    intro c hc
    rw [escapeHtml_cons] at hc
    rcases List.mem_append.mp hc with h | h
    · exact escMap_no_raw x c h
    · exact ih c h

theorem escapeHtml_amp_entity (t : List Char) :
    ∀ i : Nat, (escapeHtml t)[i]? = some '&' →
      ((chars "&amp;").isPrefixOf ((escapeHtml t).drop i) = true ∨
       (chars "&lt;").isPrefixOf ((escapeHtml t).drop i) = true ∨
       (chars "&gt;").isPrefixOf ((escapeHtml t).drop i) = true ∨
       (chars "&quot;").isPrefixOf ((escapeHtml t).drop i) = true) := by
  induction t with
  | nil =>
    intro i h
    rw [show escapeHtml [] = [] from rfl] at h
    simp at h
  | cons x xs ih =>
    intro i h
    rw [escapeHtml_cons] at h ⊢
    rcases Nat.lt_or_ge i (escMap x).length with hi | hi
    · rw [List.getElem?_append_left hi] at h
      rw [List.drop_append_eq_append_drop]
      by_cases ha : x = '&'
      · subst ha
        rw [show escMap '&' = ['&', 'a', 'm', 'p', ';'] from rfl] at h hi ⊢
        have hi5 : i < 5 := by simpa using hi
        interval_cases i
        · left
          rw [List.drop_zero]
          exact List.isPrefixOf_iff_prefix.mpr
            (by rw [show chars "&amp;" = ['&', 'a', 'm', 'p', ';'] from rfl]
                exact List.prefix_append _ _)
        · exact absurd h (by decide)
        · exact absurd h (by decide)
        · exact absurd h (by decide)
        · exact absurd h (by decide)
      by_cases hl : x = '<'
      · subst hl
        rw [show escMap '<' = ['&', 'l', 't', ';'] from rfl] at h hi ⊢
        have hi4 : i < 4 := by simpa using hi
        interval_cases i
        · right
          left
          rw [List.drop_zero]
          exact List.isPrefixOf_iff_prefix.mpr
            (by rw [show chars "&lt;" = ['&', 'l', 't', ';'] from rfl]
                exact List.prefix_append _ _)
        · exact absurd h (by decide)
        · exact absurd h (by decide)
        · exact absurd h (by decide)
      by_cases hg : x = '>'
      · subst hg
        rw [show escMap '>' = ['&', 'g', 't', ';'] from rfl] at h hi ⊢
        have hi4 : i < 4 := by simpa using hi
        interval_cases i
        · right
          right
          left
          rw [List.drop_zero]
          exact List.isPrefixOf_iff_prefix.mpr
            (by rw [show chars "&gt;" = ['&', 'g', 't', ';'] from rfl]
                exact List.prefix_append _ _)
        · exact absurd h (by decide)
        · exact absurd h (by decide)
        · exact absurd h (by decide)
      by_cases hq : x = quoteChar
      · subst hq
        rw [show escMap quoteChar = ['&', 'q', 'u', 'o', 't', ';'] from rfl] at h hi ⊢
        have hi6 : i < 6 := by simpa using hi
        interval_cases i
        · right
          right
          right
          rw [List.drop_zero]
          exact List.isPrefixOf_iff_prefix.mpr
            (by rw [show chars "&quot;" = ['&', 'q', 'u', 'o', 't', ';'] from rfl]
                exact List.prefix_append _ _)
        · exact absurd h (by decide)
        · exact absurd h (by decide)
        · exact absurd h (by decide)
        · exact absurd h (by decide)
        · exact absurd h (by decide)
      · have he : escMap x = [x] := by
          rw [show escMap x = if x = '&' then chars "&amp;" else if x = '<' then chars "&lt;"
            else if x = '>' then chars "&gt;" else if x = quoteChar then chars "&quot;"
            else [x] from rfl, if_neg ha, if_neg hl, if_neg hg, if_neg hq]
        rw [he] at h hi
        have hi1 : i = 0 := by
          simp only [List.length_singleton] at hi
          omega
        subst hi1
        rw [show ([x] : List Char)[0]? = some x from rfl] at h
        exact absurd (Option.some.inj h) ha
    · rw [List.getElem?_append_right hi] at h
      rw [List.drop_append_eq_append_drop, List.drop_eq_nil_of_le hi, List.nil_append]
      exact ih (i - (escMap x).length) h

theorem inlineTagNamesAt_nil (b : Buffer) (h : b.tags = []) (i : Nat) :
    inlineTagNamesAt b i = [] := by
  simp [inlineTagNamesAt, Buffer.namesAt, h]

theorem lineEndOff_no_nl (t : List Char) (h : t.all (fun c => c != '\n') = true) :
    lineEndOff t 0 = t.length := by
  unfold lineEndOff
  rw [List.drop_zero]
  have h2 : (t ++ []).takeWhile (fun c => c != '\n') = t ++ ([] : List Char).takeWhile
      (fun c => c != '\n') := takeWhile_append_all [] h
  rw [List.append_nil] at h2
  rw [show ([] : List Char).takeWhile (fun c => c != '\n') = [] from rfl,
    List.append_nil] at h2
  rw [h2]
  omega

theorem segEndGo_plain (b : Buffer) (htags : b.tags = []) (horc : ORC ∉ b.text) :
    ∀ fuel i, i < b.text.length →
      segEndGo b b.text.length [] fuel i = min b.text.length (i + fuel) := by
  intro fuel
  induction fuel with
  | zero =>
    intro i hi
    show i = min b.text.length (i + 0)
    omega
  | succ f ih =>
    intro i hi
    show segEndGo b b.text.length [] (f + 1) i = _
    simp only [segEndGo]
    by_cases hc : i + 1 ≥ b.text.length
    · rw [if_pos (Or.inl hc)]
      omega
    · have horcc : ¬(charAt b.text (i + 1) = ORC) := by
        intro hco
        have h1 : i + 1 < b.text.length := by omega
        have hmem : charAt b.text (i + 1) ∈ b.text := by
          unfold charAt
          rw [List.getD_eq_getElem b.text ' ' h1]
          exact List.getElem_mem h1
        exact horc (hco ▸ hmem)
      have htagsc : ¬(inlineTagNamesAt b (i + 1) ≠ ([] : List String)) := by
        simp [inlineTagNamesAt_nil b htags]
      rw [if_neg (by omega : ¬(i + 1 ≥ b.text.length ∨ i + 1 ≥ b.text.length)),
        if_neg horcc, if_neg htagsc, ih (i + 1) (by omega)]
      omega

theorem serLineGo_stop (b : Buffer) (im : List (Nat × String × Int))
    (e fuel i : Nat) (h : ¬ i < e) : serLineGo b im e fuel i = [] := by
  cases fuel with
  | zero => rfl
  | succ f =>
    simp only [serLineGo]
    rw [if_neg h]

theorem serializeToHtml_plain_line (t : List Char) (hne : t ≠ [])
    (hnl : t.all (fun c => c != '\n') = true) (horc : ORC ∉ t)
    (hstrip : stripListMark t ≠ []) :
    serializeToHtml { text := t, tags := [], cursor := 0 } [] =
      chars "<p>" ++ escapeHtml (stripListMark t) ++ chars "</p>\n" := by
  have hlen : 0 < t.length := List.length_pos.mpr hne
  have hcount : lineCount t = 1 := by
    unfold lineCount
    have hf : t.filter (fun c => c == '\n') = [] := by
      rw [List.filter_eq_nil_iff]
      intro a ha
      have h2 := List.all_eq_true.mp hnl a ha
      simp only [bne_iff_ne, ne_eq] at h2
      simp [h2]
    rw [hf]
    rfl
  have hls0 : lineStartOff t 0 = some 0 := by
    cases t <;> rfl
  have hle : lineEndOff t 0 = t.length := lineEndOff_no_nl t hnl
  have hhas : ∀ n s e,
      Buffer.hasTagInRange { text := t, tags := [], cursor := 0 } n s e = false := by
    intro n s e
    unfold Buffer.hasTagInRange Buffer.covers
    simp
  have hdet : ∀ s e,
      determineBlockTag { text := t, tags := [], cursor := 0 } s e = none := by
    intro s e
    unfold determineBlockTag
    rw [List.find?_eq_none]
    intro x hx
    simp [hhas]
  have hseg : segEndGo { text := t, tags := [], cursor := 0 } t.length []
      t.length 0 = t.length := by
    have h := segEndGo_plain { text := t, tags := [], cursor := 0 } rfl horc
      t.length 0 hlen
    rw [h]
    show min t.length (0 + t.length) = t.length
    omega
  have hcontent : serializeLineContent { text := t, tags := [], cursor := 0 } []
      0 t.length = escapeHtml (stripListMark t) := by
    unfold serializeLineContent
    rw [show t.length + 1 - 0 = t.length + 1 from rfl]
    simp only [serLineGo]
    rw [if_pos hlen]
    have hch : ¬ (charAt ({ text := t, tags := [], cursor := 0 } : Buffer).text 0 = ORC) := by
      intro hco
      have hmem : charAt t 0 ∈ t := by
        unfold charAt
        rw [List.getD_eq_getElem t ' ' hlen]
        exact List.getElem_mem hlen
      exact horc (hco ▸ hmem)
    rw [if_neg hch]
    rw [inlineTagNamesAt_nil _ rfl]
    rw [show t.length - 0 = t.length from rfl]
    rw [hseg]
    rw [if_neg (by omega : ¬ t.length > t.length)]
    rw [show sliceText t 0 t.length = t from by
      unfold sliceText
      rw [List.drop_zero, Nat.sub_zero, List.take_length]]
    rw [if_neg hstrip]
    rw [serLineGo_stop _ _ _ _ _ (by omega : ¬ t.length < t.length)]
    simp [joinList]
  unfold serializeToHtml
  rw [hcount]
  simp only [show List.range 1 = [0] from rfl, List.foldl_cons, List.foldl_nil]
  unfold serLine
  rw [hls0]
  simp only
  rw [hle]
  rw [if_neg (by
    rintro ⟨-, h2, -⟩
    omega)]
  rw [hdet]
  simp only
  rw [hcontent]
  rw [show serTransition none none = [] from rfl]
  simp only [List.nil_append, List.append_nil]
  rw [List.append_assoc, List.append_assoc]
  rfl


/-- Modelled from the spec: the deserializer first tokenizes the HTML
with the html5ever tokenizer (no tree construction), which yields start
tags with their attributes, end tags, and character data with the
standard entities decoded.  The model below is a strict tokenizer for
the markup shapes the serializer emits; anything else yields none. -/
def isNameChar (c : Char) : Bool := c.isAlphanum

/-- Decode of one named entity body after an ampersand. -/
def decodeEnt (cs : List Char) : Option (Char × List Char) :=
  if (chars "amp;").isPrefixOf cs then some ('&', cs.drop 4)
  else if (chars "lt;").isPrefixOf cs then some ('<', cs.drop 3)
  else if (chars "gt;").isPrefixOf cs then some ('>', cs.drop 3)
  else if (chars "quot;").isPrefixOf cs then some (quoteChar, cs.drop 5)
  else none

/-- Character-data run: collect and entity-decode until a tag opens. -/
def tokTextGo : Nat → List Char → List Char × List Char
  | 0, cs => ([], cs)
  | _ + 1, [] => ([], [])
  | f + 1, c :: rest =>
    if c = '<' then ([], c :: rest)
    else if c = '&' then
      match decodeEnt rest with
      | some dr =>
        let p := tokTextGo f dr.2
        (dr.1 :: p.1, p.2)
      | none =>
        let p := tokTextGo f rest
        ('&' :: p.1, p.2)
    else
      let p := tokTextGo f rest
      (c :: p.1, p.2)

/-- One quoted attribute value, entity-decoded, up to the closing quote. -/
def attrValGo : Nat → List Char → Option (List Char × List Char)
  | 0, _ => none
  | _ + 1, [] => none
  | f + 1, c :: rest =>
    if c = quoteChar then some ([], rest)
    else if c = '&' then
      match decodeEnt rest with
      | some dr => (attrValGo f dr.2).map (fun p => (dr.1 :: p.1, p.2))
      | none => (attrValGo f rest).map (fun p => ('&' :: p.1, p.2))
    else (attrValGo f rest).map (fun p => (c :: p.1, p.2))

/-- Attribute list of a start tag: name="value" pairs up to the > or /. -/
def attrsGo : Nat → List Char → Option (List (String × String) × List Char)
  | 0, _ => none
  | f + 1, cs =>
    let cs1 := cs.dropWhile (fun c => c == ' ')
    match cs1 with
    | [] => none
    | c :: rest =>
      if c = '>' ∨ c = '/' then some ([], c :: rest)
      else
        let an := cs1.takeWhile isNameChar
        let r1 := cs1.dropWhile isNameChar
        if an = [] then none
        else
          match r1 with
          | d :: q :: r3 =>
            if d = '=' ∧ q = quoteChar then
              match attrValGo (r3.length + 1) r3 with
              | some vr =>
                (attrsGo f vr.2).map
                  (fun p => ((String.mk an, String.mk vr.1) :: p.1, p.2))
              | none => none
            else none
          | _ => none

/-- One tag after its opening angle bracket: an end tag or a start tag
with attributes, possibly self-closing. -/
def parseTag (cs : List Char) : Option (HtmlTok × List Char) :=
  match cs with
  | [] => none
  | c0 :: r0 =>
    if c0 = '/' then
      let nm := r0.takeWhile isNameChar
      let r2 := r0.dropWhile isNameChar
      if nm = [] then none
      else
        match r2 with
        | [] => none
        | c2 :: r3 => if c2 = '>' then some (.endTag (String.mk nm), r3) else none
    else
      let nm := (c0 :: r0).takeWhile isNameChar
      let r1 := (c0 :: r0).dropWhile isNameChar
      if nm = [] then none
      else
        match attrsGo (r1.length + 1) r1 with
        | some ar =>
          (match ar.2 with
           | [] => none
           | c2 :: r3 =>
             if c2 = '>' then some (.startTag (String.mk nm) ar.1, r3)
             else if c2 = '/' then
               match r3 with
               | [] => none
               | c3 :: r4 =>
                 if c3 = '>' then some (.startTag (String.mk nm) ar.1, r4) else none
             else none)
        | none => none

/-- Fuel-bounded token loop: tags and maximal character-data runs. -/
def tokenizeGo : Nat → List Char → Option (List HtmlTok)
  | 0, _ => none
  | _ + 1, [] => some []
  | f + 1, c :: rest =>
    if c = '<' then
      match parseTag rest with
      | some tr => (tokenizeGo f tr.2).map (fun ts => tr.1 :: ts)
      | none => none
    else
      let p := tokTextGo (c :: rest).length (c :: rest)
      (tokenizeGo f p.2).map (fun ts => HtmlTok.text (String.mk p.1) :: ts)

/-- The whole tokenization of an HTML string. -/
def tokenize (cs : List Char) : Option (List HtmlTok) :=
  tokenizeGo (cs.length + 1) cs

/-- Counterexample to claim C1: the paragraph "  1. abc" (a plain
paragraph whose text merely looks like a numbered item) with a bold run
on its last three characters round-trips to a buffer whose bold tag no
longer covers offset 5: the serializer strips the list-looking prefix
from the untagged segment, shifting all later coverage. -/
theorem c1_counterexample :
    (match tokenize (serializeToHtml
        { text := chars "  1. abc", tags := [("bold", 5, 8)], cursor := 0 } []) with
     | some toks => some ((deserializeHtml (fun _ => false) toks).buf.covers "bold" 5)
     | none => none) = some false ∧
    Buffer.covers { text := chars "  1. abc", tags := [("bold", 5, 8)], cursor := 0 }
      "bold" 5 = true := by
  constructor
  · decide
  · decide

theorem tokTextGo_nil (f : Nat) : tokTextGo f [] = ([], []) := by
  cases f <;> rfl

theorem decodeEnt_len {cs : List Char} {dr : Char × List Char}
    (h : decodeEnt cs = some dr) : dr.2.length + 3 ≤ cs.length := by
  unfold decodeEnt at h
  split_ifs at h with h1 h2 h3 h4
  · injection h with h5
    subst h5
    have := List.IsPrefix.length_le (List.isPrefixOf_iff_prefix.mp h1)
    rw [List.length_drop]
    rw [show (chars "amp;").length = 4 from rfl] at this
    omega
  · injection h with h5
    subst h5
    have := List.IsPrefix.length_le (List.isPrefixOf_iff_prefix.mp h2)
    rw [List.length_drop]
    rw [show (chars "lt;").length = 3 from rfl] at this
    omega
  · injection h with h5
    subst h5
    have := List.IsPrefix.length_le (List.isPrefixOf_iff_prefix.mp h3)
    rw [List.length_drop]
    rw [show (chars "gt;").length = 3 from rfl] at this
    omega
  · injection h with h5
    subst h5
    have := List.IsPrefix.length_le (List.isPrefixOf_iff_prefix.mp h4)
    rw [List.length_drop]
    rw [show (chars "quot;").length = 5 from rfl] at this
    omega

theorem tokTextGo_len : ∀ (f : Nat) (cs : List Char),
    (tokTextGo f cs).2.length ≤ cs.length := by
  intro f
  induction f with
  | zero =>
    intro cs
    exact Nat.le_refl _
  | succ g ih =>
    intro cs
    cases cs with
    | nil =>
      rw [tokTextGo_nil]
    | cons c rest =>
      show (tokTextGo (g + 1) (c :: rest)).2.length ≤ (c :: rest).length
      simp only [tokTextGo]
      by_cases hc : c = '<'
      · rw [if_pos hc]
      · rw [if_neg hc]
        by_cases ha : c = '&'
        · rw [if_pos ha]
          cases hdec : decodeEnt rest with
          | some dr =>
            dsimp only
            have h1 := decodeEnt_len hdec
            have h2 := ih dr.2
            simp only [List.length_cons]
            omega
          | none =>
            dsimp only
            have h2 := ih rest
            simp only [List.length_cons]
            omega
        · rw [if_neg ha]
          dsimp only
          have h2 := ih rest
          simp only [List.length_cons]
          omega

theorem tokTextGo_congr : ∀ (f1 : Nat) (cs : List Char) (f2 : Nat),
    cs.length ≤ f1 → cs.length ≤ f2 → tokTextGo f1 cs = tokTextGo f2 cs := by
  intro f1
  induction f1 with
  | zero =>
    intro cs f2 h1 h2
    have h3 : cs = [] := List.length_eq_zero.mp (Nat.le_zero.mp h1)
    subst h3
    rw [tokTextGo_nil, tokTextGo_nil]
  | succ f ih =>
    intro cs f2 h1 h2
    cases cs with
    | nil => rw [tokTextGo_nil, tokTextGo_nil]
    | cons c rest =>
      cases f2 with
      | zero => simp at h2
      | succ g =>
        show tokTextGo (f + 1) (c :: rest) = tokTextGo (g + 1) (c :: rest)
        simp only [tokTextGo]
        by_cases hc : c = '<'
        · rw [if_pos hc, if_pos hc]
        rw [if_neg hc, if_neg hc]
        simp only [List.length_cons] at h1 h2
        by_cases ha : c = '&'
        · rw [if_pos ha, if_pos ha]
          cases hdec : decodeEnt rest with
          | some dr =>
            have hl := decodeEnt_len hdec
            dsimp only
            rw [ih dr.2 g (by omega) (by omega)]
          | none =>
            dsimp only
            rw [ih rest g (by omega) (by omega)]
        · rw [if_neg ha, if_neg ha]
          rw [ih rest g (by omega) (by omega)]

theorem attrValGo_len : ∀ (f : Nat) (cs : List Char) (vr : List Char × List Char),
    attrValGo f cs = some vr → vr.2.length < cs.length := by
  intro f
  induction f with
  | zero =>
    intro cs vr h
    exact Option.noConfusion h
  | succ f ih =>
    intro cs vr h
    cases cs with
    | nil => exact Option.noConfusion h
    | cons c rest =>
      simp only [attrValGo] at h
      by_cases hq : c = quoteChar
      · rw [if_pos hq] at h
        injection h with h2
        subst h2
        simp
      · rw [if_neg hq] at h
        by_cases ha : c = '&'
        · rw [if_pos ha] at h
          cases hdec : decodeEnt rest with
          | some dr =>
            rw [hdec] at h
            dsimp only at h
            rcases Option.map_eq_some'.mp h with ⟨p, hp, hvr⟩
            subst hvr
            have h1 := decodeEnt_len hdec
            have h2 := ih dr.2 p hp
            simp only [List.length_cons]
            omega
          | none =>
            rw [hdec] at h
            dsimp only at h
            rcases Option.map_eq_some'.mp h with ⟨p, hp, hvr⟩
            subst hvr
            have h2 := ih rest p hp
            simp only [List.length_cons]
            omega
        · rw [if_neg ha] at h
          rcases Option.map_eq_some'.mp h with ⟨p, hp, hvr⟩
          subst hvr
          have h2 := ih rest p hp
          simp only [List.length_cons]
          omega

theorem dropWhile_len_le (p : Char → Bool) (l : List Char) :
    (l.dropWhile p).length ≤ l.length := by
  induction l with
  | nil => exact Nat.le_refl _
  | cons x xs ih =>
    rw [List.dropWhile_cons]
    by_cases hx : p x = true
    · rw [if_pos hx]
      simp only [List.length_cons]
      omega
    · rw [if_neg hx]

theorem attrsGo_len : ∀ (f : Nat) (cs : List Char)
    (ar : List (String × String) × List Char),
    attrsGo f cs = some ar → ar.2.length ≤ cs.length := by
  intro f
  induction f with
  | zero =>
    intro cs ar h
    exact Option.noConfusion h
  | succ f ih =>
    intro cs ar h
    have hdw : (cs.dropWhile (fun c => c == ' ')).length ≤ cs.length :=
      dropWhile_len_le _ _
    cases hcs1 : cs.dropWhile (fun c => c == ' ') with
    | nil =>
      simp only [attrsGo, hcs1] at h
      exact Option.noConfusion h
    | cons c rest =>
      rw [hcs1] at hdw
      simp only [attrsGo, hcs1] at h
      by_cases hgt : c = '>' ∨ c = '/'
      · rw [if_pos hgt] at h
        injection h with h2
        subst h2
        exact hdw
      · rw [if_neg hgt] at h
        by_cases han : (c :: rest).takeWhile isNameChar = []
        · rw [if_pos han] at h
          exact Option.noConfusion h
        · rw [if_neg han] at h
          have hr1len : ((c :: rest).dropWhile isNameChar).length ≤ (c :: rest).length :=
            dropWhile_len_le _ _
          cases hr1 : (c :: rest).dropWhile isNameChar with
          | nil =>
            rw [hr1] at h
            exact Option.noConfusion h
          | cons d r2 =>
            rw [hr1] at h hr1len
            cases r2 with
            | nil =>
              exact Option.noConfusion h
            | cons q r3 =>
              dsimp only at h
              by_cases heq : d = '=' ∧ q = quoteChar
              · rw [if_pos heq] at h
                cases hval : attrValGo (r3.length + 1) r3 with
                | none =>
                  rw [hval] at h
                  exact Option.noConfusion h
                | some vr =>
                  rw [hval] at h
                  dsimp only at h
                  rcases Option.map_eq_some'.mp h with ⟨p, hp, har⟩
                  subst har
                  have h1 := attrValGo_len _ _ _ hval
                  have h2 := ih vr.2 p hp
                  have hfin : p.2.length ≤ cs.length := by
                    simp only [List.length_cons] at hr1len hdw
                    omega
                  exact hfin
              · rw [if_neg heq] at h
                exact Option.noConfusion h

theorem parseTag_len (cs : List Char) (tr : HtmlTok × List Char)
    (h : parseTag cs = some tr) : tr.2.length < cs.length := by
  cases cs with
  | nil => exact Option.noConfusion h
  | cons c0 r0 =>
    simp only [parseTag] at h
    by_cases hsl : c0 = '/'
    · rw [if_pos hsl] at h
      by_cases hnm : r0.takeWhile isNameChar = []
      · rw [if_pos hnm] at h
        exact Option.noConfusion h
      · rw [if_neg hnm] at h
        have hr2len : (r0.dropWhile isNameChar).length ≤ r0.length :=
          dropWhile_len_le _ _
        cases hr2 : r0.dropWhile isNameChar with
        | nil =>
          rw [hr2] at h
          exact Option.noConfusion h
        | cons c2 r3 =>
          rw [hr2] at h hr2len
          dsimp only at h
          by_cases hc2 : c2 = '>'
          · rw [if_pos hc2] at h
            injection h with h2
            subst h2
            have hfin : r3.length < (c0 :: r0).length := by
              simp only [List.length_cons] at hr2len ⊢
              omega
            exact hfin
          · rw [if_neg hc2] at h
            exact Option.noConfusion h
    · rw [if_neg hsl] at h
      by_cases hnm : (c0 :: r0).takeWhile isNameChar = []
      · rw [if_pos hnm] at h
        exact Option.noConfusion h
      · rw [if_neg hnm] at h
        have hr1len : ((c0 :: r0).dropWhile isNameChar).length ≤ (c0 :: r0).length :=
          dropWhile_len_le _ _
        cases har : attrsGo (((c0 :: r0).dropWhile isNameChar).length + 1)
            ((c0 :: r0).dropWhile isNameChar) with
        | none =>
          rw [har] at h
          exact Option.noConfusion h
        | some ar =>
          rw [har] at h
          dsimp only at h
          have harlen : ar.2.length ≤ ((c0 :: r0).dropWhile isNameChar).length :=
            attrsGo_len _ _ _ har
          cases har2 : ar.2 with
          | nil =>
            rw [har2] at h
            exact Option.noConfusion h
          | cons c2 r3 =>
            rw [har2] at h harlen
            dsimp only at h
            by_cases hc2 : c2 = '>'
            · rw [if_pos hc2] at h
              injection h with h2
              subst h2
              have hfin : r3.length < (c0 :: r0).length := by
                simp only [List.length_cons] at harlen hr1len ⊢
                omega
              exact hfin
            · rw [if_neg hc2] at h
              by_cases hc2b : c2 = '/'
              · rw [if_pos hc2b] at h
                cases r3 with
                | nil => exact Option.noConfusion h
                | cons c3 r4 =>
                  dsimp only at h
                  by_cases hc3 : c3 = '>'
                  · rw [if_pos hc3] at h
                    injection h with h2
                    subst h2
                    have hfin : r4.length < (c0 :: r0).length := by
                      simp only [List.length_cons] at harlen hr1len ⊢
                      omega
                    exact hfin
                  · rw [if_neg hc3] at h
                    exact Option.noConfusion h
              · rw [if_neg hc2b] at h
                exact Option.noConfusion h

theorem tokTextGo_progress (c : Char) (rest : List Char) (f : Nat) (hc : ¬ c = '<') :
    (tokTextGo (f + 1) (c :: rest)).2.length ≤ rest.length := by
  simp only [tokTextGo]
  rw [if_neg hc]
  by_cases ha : c = '&'
  · rw [if_pos ha]
    cases hdec : decodeEnt rest with
    | some dr =>
      dsimp only
      have h1 := decodeEnt_len hdec
      have h2 := tokTextGo_len f dr.2
      omega
    | none =>
      dsimp only
      have h2 := tokTextGo_len f rest
      omega
  · rw [if_neg ha]
    dsimp only
    have h2 := tokTextGo_len f rest
    omega

theorem tokenizeGo_congr : ∀ (f1 : Nat) (cs : List Char) (f2 : Nat),
    cs.length < f1 → cs.length < f2 → tokenizeGo f1 cs = tokenizeGo f2 cs := by
  intro f1
  induction f1 with
  | zero =>
    intro cs f2 h1 h2
    exact absurd h1 (Nat.not_lt_zero _)
  | succ f ih =>
    intro cs f2 h1 h2
    cases cs with
    | nil =>
      cases f2 with
      | zero => exact absurd h2 (by omega)
      | succ g => rfl
    | cons c rest =>
      cases f2 with
      | zero => exact absurd h2 (by omega)
      | succ g =>
        show tokenizeGo (f + 1) (c :: rest) = tokenizeGo (g + 1) (c :: rest)
        simp only [tokenizeGo, List.length_cons]
        simp only [List.length_cons] at h1 h2
        by_cases hc : c = '<'
        · rw [if_pos hc, if_pos hc]
          cases hpt : parseTag rest with
          | none => rfl
          | some tr =>
            have hlen := parseTag_len rest tr hpt
            dsimp only
            simp only [List.length_cons] at hlen
            rw [ih tr.2 g (by omega) (by omega)]
        · rw [if_neg hc, if_neg hc]
          have hprog := tokTextGo_progress c rest rest.length hc
          rw [ih (tokTextGo (rest.length + 1) (c :: rest)).2 g (by omega) (by omega)]

theorem dropWhile_append_all {p : Char → Bool} {xs : List Char} (ys : List Char)
    (h : xs.all p = true) : (xs ++ ys).dropWhile p = ys.dropWhile p := by
  induction xs with
  | nil => rfl
  | cons x xs ih =>
    simp only [List.all_cons, Bool.and_eq_true] at h
    simp only [List.cons_append, List.dropWhile_cons, h.1, if_true]
    exact ih h.2

theorem escMap_ne_nil (x : Char) : escMap x ≠ [] := by
  unfold escMap
  split_ifs <;> simp [chars]

theorem escapeHtml_ne_nil (t : List Char) (h : t ≠ []) : escapeHtml t ≠ [] := by
  cases t with
  | nil => exact absurd rfl h
  | cons x xs =>
    rw [escapeHtml_cons]
    intro hcon
    rcases List.append_eq_nil.mp hcon with ⟨h1, -⟩
    exact escMap_ne_nil x h1

theorem decodeEnt_amp (L : List Char) : decodeEnt (chars "amp;" ++ L) = some ('&', L) := by
  unfold decodeEnt
  rw [if_pos (List.isPrefixOf_iff_prefix.mpr (List.prefix_append _ _))]
  rw [show (4 : Nat) = (chars "amp;").length from rfl, List.drop_left]

theorem decodeEnt_lt (L : List Char) : decodeEnt (chars "lt;" ++ L) = some ('<', L) := by
  unfold decodeEnt
  rw [show (chars "amp;").isPrefixOf (chars "lt;" ++ L) = false from rfl]
  rw [if_neg (by simp : ¬ (false = true))]
  rw [if_pos (List.isPrefixOf_iff_prefix.mpr (List.prefix_append _ _))]
  rw [show (3 : Nat) = (chars "lt;").length from rfl, List.drop_left]

theorem decodeEnt_gt (L : List Char) : decodeEnt (chars "gt;" ++ L) = some ('>', L) := by
  unfold decodeEnt
  rw [show (chars "amp;").isPrefixOf (chars "gt;" ++ L) = false from rfl]
  rw [if_neg (by simp : ¬ (false = true))]
  rw [show (chars "lt;").isPrefixOf (chars "gt;" ++ L) = false from rfl]
  rw [if_neg (by simp : ¬ (false = true))]
  rw [if_pos (List.isPrefixOf_iff_prefix.mpr (List.prefix_append _ _))]
  rw [show (3 : Nat) = (chars "gt;").length from rfl, List.drop_left]

theorem decodeEnt_quot (L : List Char) :
    decodeEnt (chars "quot;" ++ L) = some (quoteChar, L) := by
  unfold decodeEnt
  rw [show (chars "amp;").isPrefixOf (chars "quot;" ++ L) = false from rfl]
  rw [if_neg (by simp : ¬ (false = true))]
  rw [show (chars "lt;").isPrefixOf (chars "quot;" ++ L) = false from rfl]
  rw [if_neg (by simp : ¬ (false = true))]
  rw [show (chars "gt;").isPrefixOf (chars "quot;" ++ L) = false from rfl]
  rw [if_neg (by simp : ¬ (false = true))]
  rw [if_pos (List.isPrefixOf_iff_prefix.mpr (List.prefix_append _ _))]
  rw [show (5 : Nat) = (chars "quot;").length from rfl, List.drop_left]

theorem tokTextGo_escape (t : List Char) (rest : List Char)
    (hrest : rest = [] ∨ ∃ r', rest = '<' :: r') :
    ∀ f, (escapeHtml t ++ rest).length ≤ f →
      tokTextGo f (escapeHtml t ++ rest) = (t, rest) := by
  induction t with
  | nil =>
    intro f hf
    rw [show escapeHtml [] = [] from rfl, List.nil_append] at hf ⊢
    rcases hrest with h | ⟨r', h⟩
    · subst h
      rw [tokTextGo_nil]
    · subst h
      cases f with
      | zero => simp at hf
      | succ f2 =>
        simp only [tokTextGo]
        rw [if_pos trivial]
  | cons x xs ih =>
    intro f hf
    rw [escapeHtml_cons, List.append_assoc] at hf ⊢
    by_cases ha : x = '&'
    · subst ha
      rw [show (escMap '&' : List Char) ++ (escapeHtml xs ++ rest) =
        '&' :: (chars "amp;" ++ (escapeHtml xs ++ rest)) from rfl] at hf ⊢
      cases f with
      | zero => simp at hf
      | succ f2 =>
        simp only [tokTextGo]
        rw [if_pos trivial, decodeEnt_amp]
        dsimp only
        rw [ih f2 (by
          simp only [List.length_cons, List.length_append] at hf ⊢
          rw [show (chars "amp;").length = 4 from rfl] at hf
          omega)]
        simp
    by_cases hl : x = '<'
    · subst hl
      rw [show (escMap '<' : List Char) ++ (escapeHtml xs ++ rest) =
        '&' :: (chars "lt;" ++ (escapeHtml xs ++ rest)) from rfl] at hf ⊢
      cases f with
      | zero => simp at hf
      | succ f2 =>
        simp only [tokTextGo]
        rw [if_pos trivial, decodeEnt_lt]
        dsimp only
        rw [ih f2 (by
          simp only [List.length_cons, List.length_append] at hf ⊢
          rw [show (chars "lt;").length = 3 from rfl] at hf
          omega)]
        simp
    by_cases hg : x = '>'
    · subst hg
      rw [show (escMap '>' : List Char) ++ (escapeHtml xs ++ rest) =
        '&' :: (chars "gt;" ++ (escapeHtml xs ++ rest)) from rfl] at hf ⊢
      cases f with
      | zero => simp at hf
      | succ f2 =>
        simp only [tokTextGo]
        rw [if_pos trivial, decodeEnt_gt]
        dsimp only
        rw [ih f2 (by
          simp only [List.length_cons, List.length_append] at hf ⊢
          rw [show (chars "gt;").length = 3 from rfl] at hf
          omega)]
        simp
    by_cases hq : x = quoteChar
    · subst hq
      rw [show (escMap quoteChar : List Char) ++ (escapeHtml xs ++ rest) =
        '&' :: (chars "quot;" ++ (escapeHtml xs ++ rest)) from rfl] at hf ⊢
      cases f with
      | zero => simp at hf
      | succ f2 =>
        simp only [tokTextGo]
        rw [if_pos trivial, decodeEnt_quot]
        dsimp only
        rw [ih f2 (by
          simp only [List.length_cons, List.length_append] at hf ⊢
          rw [show (chars "quot;").length = 5 from rfl] at hf
          omega)]
        simp
    · have he : escMap x = [x] := by
        rw [show escMap x = if x = '&' then chars "&amp;" else if x = '<' then chars "&lt;"
          else if x = '>' then chars "&gt;" else if x = quoteChar then chars "&quot;"
          else [x] from rfl, if_neg ha, if_neg hl, if_neg hg, if_neg hq]
      rw [he] at hf ⊢
      rw [List.cons_append, List.nil_append] at hf ⊢
      cases f with
      | zero => simp at hf
      | succ f2 =>
        simp only [tokTextGo]
        rw [if_neg hl, if_neg ha]
        rw [ih f2 (by
          simp only [List.length_cons] at hf
          omega)]

theorem parseTag_start (nm : List Char) (rest : List Char) (hnm : nm ≠ [])
    (hall : nm.all isNameChar = true) :
    parseTag (nm ++ '>' :: rest) = some (.startTag (String.mk nm) [], rest) := by
  cases nm with
  | nil => exact absurd rfl hnm
  | cons n0 nm' =>
    have hn0 : isNameChar n0 = true ∧ nm'.all isNameChar = true := by
      simpa [List.all_cons, Bool.and_eq_true] using hall
    show parseTag (n0 :: (nm' ++ '>' :: rest)) = _
    simp only [parseTag]
    rw [if_neg (show ¬ n0 = '/' by
      intro h
      rw [h] at hn0
      exact absurd hn0.1 (by decide))]
    have ht : (n0 :: (nm' ++ '>' :: rest)).takeWhile isNameChar = n0 :: nm' := by
      show ((n0 :: nm') ++ '>' :: rest).takeWhile isNameChar = n0 :: nm'
      rw [takeWhile_append_all _ hall]
      rw [List.takeWhile_cons, if_neg (by decide : ¬ (isNameChar '>' = true)),
        List.append_nil]
    have hd : (n0 :: (nm' ++ '>' :: rest)).dropWhile isNameChar = '>' :: rest := by
      show ((n0 :: nm') ++ '>' :: rest).dropWhile isNameChar = '>' :: rest
      rw [dropWhile_append_all _ hall]
      rw [List.dropWhile_cons, if_neg (by decide : ¬ (isNameChar '>' = true))]
    rw [ht, hd]
    rw [if_neg (by simp : ¬ (n0 :: nm' = []))]
    have hat : attrsGo (('>' :: rest).length + 1) ('>' :: rest) =
        some ([], '>' :: rest) := by
      simp only [attrsGo]
      rw [show List.dropWhile (fun c => c == ' ') ('>' :: rest) = '>' :: rest from by
        rw [List.dropWhile_cons, if_neg (by decide)]]
      dsimp only
      rw [if_pos (Or.inl rfl)]
    rw [hat]
    dsimp only
    rw [if_pos rfl]

theorem parseTag_end (nm : List Char) (rest : List Char) (hnm : nm ≠ [])
    (hall : nm.all isNameChar = true) :
    parseTag ('/' :: (nm ++ '>' :: rest)) = some (.endTag (String.mk nm), rest) := by
  simp only [parseTag]
  rw [if_pos trivial]
  have ht : (nm ++ '>' :: rest).takeWhile isNameChar = nm := by
    rw [takeWhile_append_all _ hall]
    rw [List.takeWhile_cons, if_neg (by decide : ¬ (isNameChar '>' = true)),
      List.append_nil]
  have hd : (nm ++ '>' :: rest).dropWhile isNameChar = '>' :: rest := by
    rw [dropWhile_append_all _ hall]
    rw [List.dropWhile_cons, if_neg (by decide : ¬ (isNameChar '>' = true))]
  rw [ht, hd]
  rw [if_neg hnm]
  dsimp only
  rw [if_pos rfl]

theorem tokenize_start (nm : List Char) (rest : List Char) (hnm : nm ≠ [])
    (hall : nm.all isNameChar = true) :
    tokenize ('<' :: (nm ++ '>' :: rest)) =
      (tokenize rest).map (fun ts => HtmlTok.startTag (String.mk nm) [] :: ts) := by
  unfold tokenize
  simp only [tokenizeGo, List.length_cons]
  rw [if_pos trivial]
  rw [parseTag_start nm rest hnm hall]
  dsimp only
  rw [tokenizeGo_congr ((nm ++ '>' :: rest).length + 1) rest (rest.length + 1)
    (by simp only [List.length_append, List.length_cons]; omega) (by omega)]

theorem tokenize_end (nm : List Char) (rest : List Char) (hnm : nm ≠ [])
    (hall : nm.all isNameChar = true) :
    tokenize ('<' :: '/' :: (nm ++ '>' :: rest)) =
      (tokenize rest).map (fun ts => HtmlTok.endTag (String.mk nm) :: ts) := by
  unfold tokenize
  simp only [tokenizeGo, List.length_cons]
  rw [if_pos trivial]
  rw [parseTag_end nm rest hnm hall]
  dsimp only
  rw [tokenizeGo_congr ((nm ++ '>' :: rest).length + 1 + 1) rest (rest.length + 1)
    (by simp only [List.length_append, List.length_cons]; omega) (by omega)]

theorem tokenize_text (t : List Char) (rest : List Char) (ht : t ≠ [])
    (hrest : rest = [] ∨ ∃ r', rest = '<' :: r') :
    tokenize (escapeHtml t ++ rest) =
      (tokenize rest).map (fun ts => HtmlTok.text (String.mk t) :: ts) := by
  rcases List.exists_cons_of_ne_nil (escapeHtml_ne_nil t ht) with ⟨e0, erest, hE⟩
  have hne : ¬ e0 = '<' := by
    have hm : e0 ∈ escapeHtml t := by
      rw [hE]
      exact List.mem_cons_self _ _
    have h2 := escapeHtml_no_raw t e0 hm
    intro h
    exact h2 (Or.inl h)
  have hform : escapeHtml t ++ rest = e0 :: (erest ++ rest) := by
    rw [hE]
    rfl
  rw [hform]
  unfold tokenize
  simp only [tokenizeGo, List.length_cons]
  rw [if_neg hne]
  have htt : tokTextGo ((erest ++ rest).length + 1) (e0 :: (erest ++ rest)) =
      (t, rest) := by
    rw [← hform]
    apply tokTextGo_escape t rest hrest
    rw [hform]
    simp only [List.length_cons]
    omega
  rw [htt]
  dsimp only
  rw [tokenizeGo_congr ((erest ++ rest).length + 1) rest (rest.length + 1)
    (by simp only [List.length_append]; omega) (by omega)]

theorem segEndGo_uniform (b : Buffer) (T : List String) (horc : ORC ∉ b.text)
    (huni : ∀ i, i < b.text.length → inlineTagNamesAt b i = T) :
    ∀ fuel i, i < b.text.length →
      segEndGo b b.text.length T fuel i = min b.text.length (i + fuel) := by
  intro fuel
  induction fuel with
  | zero =>
    intro i hi
    show i = min b.text.length (i + 0)
    omega
  | succ f ih =>
    intro i hi
    show segEndGo b b.text.length T (f + 1) i = _
    simp only [segEndGo]
    by_cases hc : i + 1 ≥ b.text.length
    · rw [if_pos (Or.inl hc)]
      omega
    · have horcc : ¬(charAt b.text (i + 1) = ORC) := by
        intro hco
        have h1 : i + 1 < b.text.length := by omega
        have hmem : charAt b.text (i + 1) ∈ b.text := by
          unfold charAt
          rw [List.getD_eq_getElem b.text ' ' h1]
          exact List.getElem_mem h1
        exact horc (hco ▸ hmem)
      have htagsc : ¬(inlineTagNamesAt b (i + 1) ≠ T) := by
        simp [huni (i + 1) (by omega)]
      rw [if_neg (by omega : ¬(i + 1 ≥ b.text.length ∨ i + 1 ≥ b.text.length)),
        if_neg horcc, if_neg htagsc, ih (i + 1) (by omega)]
      omega

theorem serLineContent_uniform (t : List Char) (tags : List (String × Nat × Nat))
    (T : List String) (hne : t ≠ []) (horc : ORC ∉ t)
    (huni : ∀ i, i < t.length →
      inlineTagNamesAt { text := t, tags := tags, cursor := 0 } i = T)
    (hstrip : stripListMark t = t) :
    serializeLineContent { text := t, tags := tags, cursor := 0 } [] 0 t.length =
      joinList (T.filterMap openTagFor) ++ escapeHtml t ++
        joinList ((T.filterMap openTagFor).reverse.map closeFor) := by
  have hlen : 0 < t.length := List.length_pos.mpr hne
  have hseg : segEndGo { text := t, tags := tags, cursor := 0 } t.length T
      t.length 0 = t.length := by
    have h := segEndGo_uniform { text := t, tags := tags, cursor := 0 } T horc
      huni t.length 0 hlen
    rw [h]
    show min t.length (0 + t.length) = t.length
    omega
  unfold serializeLineContent
  rw [show t.length + 1 - 0 = t.length + 1 from rfl]
  simp only [serLineGo]
  rw [if_pos hlen]
  have hch : ¬ (charAt ({ text := t, tags := tags, cursor := 0 } : Buffer).text 0
      = ORC) := by
    intro hco
    have hmem : charAt t 0 ∈ t := by
      unfold charAt
      rw [List.getD_eq_getElem t ' ' hlen]
      exact List.getElem_mem hlen
    exact horc (hco ▸ hmem)
  rw [if_neg hch]
  rw [huni 0 hlen]
  rw [show t.length - 0 = t.length from rfl]
  rw [hseg]
  rw [if_neg (by omega : ¬ t.length > t.length)]
  rw [show sliceText t 0 t.length = t from by
    unfold sliceText
    rw [List.drop_zero, Nat.sub_zero, List.take_length]]
  rw [hstrip]
  rw [if_neg hne]
  rw [serLineGo_stop _ _ _ _ _ (by omega : ¬ t.length < t.length)]
  rw [List.append_nil, List.append_assoc]

theorem serializeToHtml_single (t : List Char) (tags : List (String × Nat × Nat))
    (hne : t ≠ []) (hnl : t.all (fun c => c != '\n') = true)
    (bt : Option String)
    (hdet : determineBlockTag { text := t, tags := tags, cursor := 0 } 0
      (lineEndOff t 0) = bt)
    (hbt : bt = none ∨ ∃ h ∈ headingNames, bt = some h)
    (body : List Char)
    (hcontent : serializeLineContent { text := t, tags := tags, cursor := 0 } [] 0
      t.length = body) :
    serializeToHtml { text := t, tags := tags, cursor := 0 } [] =
      (match bt with
       | some h => chars ("<" ++ h ++ ">")
       | none => chars "<p>") ++ body ++
      (match bt with
       | some h => chars ("</" ++ h ++ ">")
       | none => chars "</p>") ++ chars "\n" := by
  have hlen : 0 < t.length := List.length_pos.mpr hne
  have hcount : lineCount t = 1 := by
    unfold lineCount
    have hf : t.filter (fun c => c == '\n') = [] := by
      rw [List.filter_eq_nil_iff]
      intro a ha
      have h2 := List.all_eq_true.mp hnl a ha
      simp only [bne_iff_ne, ne_eq] at h2
      simp [h2]
    rw [hf]
    rfl
  have hls0 : lineStartOff t 0 = some 0 := by
    cases t <;> rfl
  have hle : lineEndOff t 0 = t.length := lineEndOff_no_nl t hnl
  unfold serializeToHtml
  rw [hcount]
  simp only [show List.range 1 = [0] from rfl, List.foldl_cons, List.foldl_nil]
  unfold serLine
  rw [hls0]
  simp only
  rw [hle] at hdet
  simp only [hle]
  rw [if_neg (by
    rintro ⟨-, h2, -⟩
    omega)]
  rw [hdet, hcontent]
  rcases hbt with rfl | ⟨h, hmem, rfl⟩
  · rw [show serTransition none none = [] from rfl]
    simp only [List.nil_append, List.append_nil, List.append_assoc]
    rfl
  · have hnb : ¬ (h = "bullet-list" ∨ h = "numbered-list") := by
      fin_cases hmem <;> decide
    have hb1 : ¬ h = "bullet-list" := fun hh => hnb (Or.inl hh)
    have hb2 : ¬ h = "numbered-list" := fun hh => hnb (Or.inr hh)
    simp only [hb1, hb2, hmem, if_false, if_true, ite_false, ite_true]
    rw [show serTransition none none = [] from rfl]
    simp only [List.nil_append, List.append_nil, List.append_assoc]
    rfl

theorem hasTagInRange_single_ne (t : List Char) (n m : String) (a b2 s e : Nat)
    (hmn : m ≠ n) :
    Buffer.hasTagInRange { text := t, tags := [(n, a, b2)], cursor := 0 } m s e
      = false := by
  unfold Buffer.hasTagInRange
  rw [List.any_eq_false]
  intro i hi
  unfold Buffer.covers
  simp [Ne.symm hmn]

theorem determineBlockTag_inline (t : List Char) (n : String) (len e : Nat)
    (hn : n ∉ blockTagNames) :
    determineBlockTag { text := t, tags := [(n, 0, len)], cursor := 0 } 0 e = none := by
  unfold determineBlockTag
  rw [List.find?_eq_none]
  intro x hx
  have hxn : x ≠ n := fun hh => hn (hh ▸ hx)
  simp [hasTagInRange_single_ne t n x 0 len 0 e hxn]

theorem determineBlockTag_heading (t : List Char) (h : String)
    (hmem : h ∈ headingNames) (hlen : 0 < t.length) (e : Nat) (he : 0 < e) :
    determineBlockTag { text := t, tags := [(h, 0, t.length)], cursor := 0 } 0 e
      = some h := by
  have htrue : Buffer.hasTagInRange
      { text := t, tags := [(h, 0, t.length)], cursor := 0 } h 0 e = true := by
    unfold Buffer.hasTagInRange
    rw [List.any_eq_true]
    refine ⟨0, ?_, ?_⟩
    · rw [Nat.sub_zero]
      exact List.mem_range'_1.mpr ⟨Nat.le_refl 0, by omega⟩
    · unfold Buffer.covers
      simp [hlen]
  unfold determineBlockTag
  fin_cases hmem
  · rw [show blockTagNames =
      "h1" :: ["h2", "h3", "h4", "bullet-list", "numbered-list"] from rfl,
      List.find?_cons_of_pos]
    exact htrue
  · rw [show blockTagNames =
      "h1" :: ["h2", "h3", "h4", "bullet-list", "numbered-list"] from rfl,
      List.find?_cons_of_neg, List.find?_cons_of_pos]
    · exact htrue
    · simp [hasTagInRange_single_ne t "h2" "h1" 0 t.length 0 e (by decide)]
  · rw [show blockTagNames =
      "h1" :: ["h2", "h3", "h4", "bullet-list", "numbered-list"] from rfl,
      List.find?_cons_of_neg, List.find?_cons_of_neg, List.find?_cons_of_pos]
    · exact htrue
    · simp [hasTagInRange_single_ne t "h3" "h2" 0 t.length 0 e (by decide)]
    · simp [hasTagInRange_single_ne t "h3" "h1" 0 t.length 0 e (by decide)]
  · rw [show blockTagNames =
      "h1" :: ["h2", "h3", "h4", "bullet-list", "numbered-list"] from rfl,
      List.find?_cons_of_neg, List.find?_cons_of_neg, List.find?_cons_of_neg,
      List.find?_cons_of_pos]
    · exact htrue
    · simp [hasTagInRange_single_ne t "h4" "h3" 0 t.length 0 e (by decide)]
    · simp [hasTagInRange_single_ne t "h4" "h2" 0 t.length 0 e (by decide)]
    · simp [hasTagInRange_single_ne t "h4" "h1" 0 t.length 0 e (by decide)]

theorem inlineTagNamesAt_single (t : List Char) (n : String)
    (hn : n ∉ blockTagNames) (i : Nat) (hi : i < t.length) :
    inlineTagNamesAt { text := t, tags := [(n, 0, t.length)], cursor := 0 } i
      = [n] := by
  unfold inlineTagNamesAt Buffer.namesAt
  simp [hi, hn]

theorem inlineTagNamesAt_block (t : List Char) (h : String)
    (hmem : h ∈ blockTagNames) (a b2 i : Nat) :
    inlineTagNamesAt { text := t, tags := [(h, a, b2)], cursor := 0 } i = [] := by
  unfold inlineTagNamesAt Buffer.namesAt
  by_cases hc : (a ≤ i && decide (i < b2)) = true
  · simp [List.filter, hc, hmem]
  · simp [List.filter, hc]

theorem serializeToHtml_inline_run (t : List Char) (n : String)
    (hne : t ≠ []) (hnl : t.all (fun c => c != '\n') = true) (horc : ORC ∉ t)
    (hstrip : stripListMark t = t) (hn : n ∉ blockTagNames) :
    serializeToHtml { text := t, tags := [(n, 0, t.length)], cursor := 0 } [] =
      chars "<p>" ++ (joinList ([n].filterMap openTagFor) ++ escapeHtml t ++
        joinList (([n].filterMap openTagFor).reverse.map closeFor)) ++
      chars "</p>" ++ chars "\n" := by
  have hdet := determineBlockTag_inline t n t.length (lineEndOff t 0) hn
  have hcontent := serLineContent_uniform t [(n, 0, t.length)] [n] hne horc
    (fun i hi => inlineTagNamesAt_single t n hn i hi) hstrip
  exact serializeToHtml_single t _ hne hnl none hdet (Or.inl rfl) _ hcontent

theorem serializeToHtml_heading_run (t : List Char) (h : String)
    (hne : t ≠ []) (hnl : t.all (fun c => c != '\n') = true) (horc : ORC ∉ t)
    (hstrip : stripListMark t = t) (hmem : h ∈ headingNames) :
    serializeToHtml { text := t, tags := [(h, 0, t.length)], cursor := 0 } [] =
      chars ("<" ++ h ++ ">") ++ escapeHtml t ++ chars ("</" ++ h ++ ">") ++
        chars "\n" := by
  have hlen : 0 < t.length := List.length_pos.mpr hne
  have hle : lineEndOff t 0 = t.length := lineEndOff_no_nl t hnl
  have hdet := determineBlockTag_heading t h hmem hlen (lineEndOff t 0) (by
    rw [hle]
    omega)
  have hmem2 : h ∈ blockTagNames := by
    fin_cases hmem <;> decide
  have hcontent := serLineContent_uniform t [(h, 0, t.length)] [] hne horc
    (fun i hi => inlineTagNamesAt_block t h hmem2 0 t.length i) hstrip
  have hmain := serializeToHtml_single t _ hne hnl (some h) hdet
    (Or.inr ⟨h, hmem, rfl⟩) _ hcontent
  rw [hmain]
  rw [show joinList (List.filterMap openTagFor []) = [] from rfl]
  rw [show joinList ((List.filterMap openTagFor []).reverse.map closeFor) = []
    from rfl]
  rw [List.nil_append, List.append_nil]

theorem tokenize_simple_block (nm : List Char) (t : List Char)
    (hne : t ≠ []) (hnm : nm ≠ []) (hall : nm.all isNameChar = true) :
    tokenize ('<' :: (nm ++ '>' :: (escapeHtml t ++
        ('<' :: '/' :: (nm ++ '>' :: chars "\n"))))) =
      some [.startTag (String.mk nm) [], .text (String.mk t),
        .endTag (String.mk nm), .text "\n"] := by
  rw [tokenize_start nm _ hnm hall]
  rw [tokenize_text t _ hne (Or.inr ⟨'/' :: (nm ++ '>' :: chars "\n"), rfl⟩)]
  rw [tokenize_end nm (chars "\n") hnm hall]
  rw [show (chars "\n" : List Char) = escapeHtml ['\n'] ++ ([] : List Char) from rfl]
  rw [tokenize_text ['\n'] [] (by decide) (Or.inl rfl)]
  rfl

theorem tokenize_nested_block (nm1 nm2 : List Char) (t : List Char)
    (hne : t ≠ []) (h1 : nm1 ≠ []) (ha1 : nm1.all isNameChar = true)
    (h2 : nm2 ≠ []) (ha2 : nm2.all isNameChar = true) :
    tokenize ('<' :: (nm1 ++ '>' :: ('<' :: (nm2 ++ '>' :: (escapeHtml t ++
        ('<' :: '/' :: (nm2 ++ '>' ::
          ('<' :: '/' :: (nm1 ++ '>' :: chars "\n"))))))))) =
      some [.startTag (String.mk nm1) [], .startTag (String.mk nm2) [],
        .text (String.mk t), .endTag (String.mk nm2), .endTag (String.mk nm1),
        .text "\n"] := by
  rw [tokenize_start nm1 _ h1 ha1, tokenize_start nm2 _ h2 ha2]
  rw [tokenize_text t _ hne (Or.inr
    ⟨'/' :: (nm2 ++ '>' :: ('<' :: '/' :: (nm1 ++ '>' :: chars "\n"))), rfl⟩)]
  rw [tokenize_end nm2 _ h2 ha2, tokenize_end nm1 (chars "\n") h1 ha1]
  rw [show (chars "\n" : List Char) = escapeHtml ['\n'] ++ ([] : List Char) from rfl]
  rw [tokenize_text ['\n'] [] (by decide) (Or.inl rfl)]
  rfl

theorem string_mk_ne_nil (t : List Char) (hne : t ≠ []) : ¬ (String.mk t = "") := by
  intro hcon
  apply hne
  have h2 := congrArg String.data hcon
  simpa using h2

theorem deserialize_simple_p (fs : String → Bool) (t : List Char) (hne : t ≠ []) :
    deserializeHtml fs [.startTag "p" [], .text (String.mk t),
        .endTag "p", .text "\n"] =
      { buf := { text := t, tags := [], cursor := 0 },
        tagStack := [], listCtx := [], olCounter := [], needNl := true,
        inBlock := false, imageMap := [] } := by
  have hlen : 0 < t.length := List.length_pos.mpr hne
  have hts := string_mk_ne_nil t hne
  have hchars : chars (String.mk t) = t := rfl
  have hws : ∀ x ∈ chars "\n", isWsChar x = true := by decide
  unfold deserializeHtml initialDeserState
  simp only [List.foldl_cons, List.foldl_nil]
  simp [deserStep, appendEnd, removeFirstTag, hts, hlen, Buffer.applyTag, hchars,
    headingNames, hws]
  decide

theorem deserialize_simple_h (fs : String → Bool) (t : List Char) (hne : t ≠ [])
    (h : String) (hmem : h ∈ headingNames) :
    deserializeHtml fs [.startTag h [], .text (String.mk t),
        .endTag h, .text "\n"] =
      { buf := { text := t, tags := [(h, 0, t.length)], cursor := 0 },
        tagStack := [], listCtx := [], olCounter := [], needNl := true,
        inBlock := false, imageMap := [] } := by
  have hlen : 0 < t.length := List.length_pos.mpr hne
  have hts := string_mk_ne_nil t hne
  have hchars : chars (String.mk t) = t := rfl
  have hws : ∀ x ∈ chars "\n", isWsChar x = true := by decide
  fin_cases hmem <;>
    (unfold deserializeHtml initialDeserState
     simp only [List.foldl_cons, List.foldl_nil]
     simp [deserStep, appendEnd, removeFirstTag, hts, hlen, Buffer.applyTag, hchars,
       headingNames, hws]
     try decide)

theorem deserialize_nested_inline (fs : String → Bool) (t : List Char) (hne : t ≠ [])
    (el n : String)
    (hel : (el = "b" ∧ n = "bold") ∨ (el = "i" ∧ n = "italic") ∨
      (el = "u" ∧ n = "underline") ∨ (el = "s" ∧ n = "strikethrough")) :
    deserializeHtml fs [.startTag "p" [], .startTag el [], .text (String.mk t),
        .endTag el, .endTag "p", .text "\n"] =
      { buf := { text := t, tags := [(n, 0, t.length)], cursor := 0 },
        tagStack := [], listCtx := [], olCounter := [], needNl := true,
        inBlock := false, imageMap := [] } := by
  have hlen : 0 < t.length := List.length_pos.mpr hne
  have hts := string_mk_ne_nil t hne
  have hchars : chars (String.mk t) = t := rfl
  have hws : ∀ x ∈ chars "\n", isWsChar x = true := by decide
  rcases hel with ⟨rfl, rfl⟩ | ⟨rfl, rfl⟩ | ⟨rfl, rfl⟩ | ⟨rfl, rfl⟩ <;>
    (unfold deserializeHtml initialDeserState
     simp only [List.foldl_cons, List.foldl_nil]
     simp [deserStep, appendEnd, removeFirstTag, hts, hlen, Buffer.applyTag, hchars,
       headingNames, hws]
     try decide)

/-- Amended claim C1: for a one-line document holding a single run whose
text is nonempty, newline-free, anchor-free and not shaped like a list
marker, carrying either no tag, one inline tag (bold, italic, underline,
strikethrough), or one whole-line heading tag, deserializing the
serializer's output restores the text exactly and every tag's coverage
at every character offset. -/
theorem c1_round_trip (t : List Char) (tag : Option String)
    (hne : t ≠ []) (hnl : t.all (fun c => c != '\n') = true) (horc : ORC ∉ t)
    (hstrip : stripListMark t = t)
    (htag : tag = none ∨ tag = some "bold" ∨ tag = some "italic" ∨
      tag = some "underline" ∨ tag = some "strikethrough" ∨
      ∃ h ∈ headingNames, tag = some h) :
    ∃ toks, tokenize (serializeToHtml
        { text := t,
          tags := (match tag with
            | none => []
            | some n2 => [(n2, 0, t.length)]),
          cursor := 0 } []) = some toks ∧
      (deserializeHtml (fun _ => false) toks).buf.text = t ∧
      ∀ (n : String) (i : Nat),
        (deserializeHtml (fun _ => false) toks).buf.covers n i =
          Buffer.covers
            { text := t,
              tags := (match tag with
                | none => []
                | some n2 => [(n2, 0, t.length)]),
              cursor := 0 } n i := by
  have hchars_app : ∀ (a b : String), chars (a ++ b) = chars a ++ chars b :=
    fun a b => String.data_append a b
  rcases htag with rfl | rfl | rfl | rfl | rfl | ⟨h, hmem, rfl⟩
  · refine ⟨[.startTag "p" [], .text (String.mk t), .endTag "p", .text "\n"],
      ?_, ?_, ?_⟩
    · dsimp only
      rw [serializeToHtml_plain_line t hne hnl horc (by
        rw [hstrip]
        exact hne)]
      rw [hstrip]
      rw [show chars "<p>" ++ escapeHtml t ++ chars "</p>\n" =
          '<' :: (chars "p" ++ '>' :: (escapeHtml t ++
            ('<' :: '/' :: (chars "p" ++ '>' :: chars "\n")))) from by
        simp only [List.append_assoc]
        rfl]
      rw [tokenize_simple_block (chars "p") t hne (by decide) (by decide)]
      rfl
    · rw [deserialize_simple_p (fun _ => false) t hne]
    · intro n i
      rw [deserialize_simple_p (fun _ => false) t hne]
  · refine ⟨[.startTag "p" [], .startTag "b" [], .text (String.mk t),
      .endTag "b", .endTag "p", .text "\n"], ?_, ?_, ?_⟩
    · dsimp only
      rw [serializeToHtml_inline_run t "bold" hne hnl horc hstrip (by decide)]
      rw [show chars "<p>" ++ (joinList (["bold"].filterMap openTagFor) ++
          escapeHtml t ++
          joinList ((["bold"].filterMap openTagFor).reverse.map closeFor)) ++
          chars "</p>" ++ chars "\n" =
          '<' :: (chars "p" ++ '>' :: ('<' :: (chars "b" ++ '>' :: (escapeHtml t ++
            ('<' :: '/' :: (chars "b" ++ '>' ::
              ('<' :: '/' :: (chars "p" ++ '>' :: chars "\n")))))))) from by
        simp only [List.append_assoc]
        rfl]
      rw [tokenize_nested_block (chars "p") (chars "b") t hne (by decide) (by decide)
        (by decide) (by decide)]
      rfl
    · rw [deserialize_nested_inline (fun _ => false) t hne "b" "bold"
        (Or.inl ⟨rfl, rfl⟩)]
    · intro n i
      rw [deserialize_nested_inline (fun _ => false) t hne "b" "bold"
        (Or.inl ⟨rfl, rfl⟩)]
  · refine ⟨[.startTag "p" [], .startTag "i" [], .text (String.mk t),
      .endTag "i", .endTag "p", .text "\n"], ?_, ?_, ?_⟩
    · dsimp only
      rw [serializeToHtml_inline_run t "italic" hne hnl horc hstrip (by decide)]
      rw [show chars "<p>" ++ (joinList (["italic"].filterMap openTagFor) ++
          escapeHtml t ++
          joinList ((["italic"].filterMap openTagFor).reverse.map closeFor)) ++
          chars "</p>" ++ chars "\n" =
          '<' :: (chars "p" ++ '>' :: ('<' :: (chars "i" ++ '>' :: (escapeHtml t ++
            ('<' :: '/' :: (chars "i" ++ '>' ::
              ('<' :: '/' :: (chars "p" ++ '>' :: chars "\n")))))))) from by
        simp only [List.append_assoc]
        rfl]
      rw [tokenize_nested_block (chars "p") (chars "i") t hne (by decide) (by decide)
        (by decide) (by decide)]
      rfl
    · rw [deserialize_nested_inline (fun _ => false) t hne "i" "italic"
        (Or.inr (Or.inl ⟨rfl, rfl⟩))]
    · intro n i
      rw [deserialize_nested_inline (fun _ => false) t hne "i" "italic"
        (Or.inr (Or.inl ⟨rfl, rfl⟩))]
  · refine ⟨[.startTag "p" [], .startTag "u" [], .text (String.mk t),
      .endTag "u", .endTag "p", .text "\n"], ?_, ?_, ?_⟩
    · dsimp only
      rw [serializeToHtml_inline_run t "underline" hne hnl horc hstrip (by decide)]
      rw [show chars "<p>" ++ (joinList (["underline"].filterMap openTagFor) ++
          escapeHtml t ++
          joinList ((["underline"].filterMap openTagFor).reverse.map closeFor)) ++
          chars "</p>" ++ chars "\n" =
          '<' :: (chars "p" ++ '>' :: ('<' :: (chars "u" ++ '>' :: (escapeHtml t ++
            ('<' :: '/' :: (chars "u" ++ '>' ::
              ('<' :: '/' :: (chars "p" ++ '>' :: chars "\n")))))))) from by
        simp only [List.append_assoc]
        rfl]
      rw [tokenize_nested_block (chars "p") (chars "u") t hne (by decide) (by decide)
        (by decide) (by decide)]
      rfl
    · rw [deserialize_nested_inline (fun _ => false) t hne "u" "underline"
        (Or.inr (Or.inr (Or.inl ⟨rfl, rfl⟩)))]
    · intro n i
      rw [deserialize_nested_inline (fun _ => false) t hne "u" "underline"
        (Or.inr (Or.inr (Or.inl ⟨rfl, rfl⟩)))]
  · refine ⟨[.startTag "p" [], .startTag "s" [], .text (String.mk t),
      .endTag "s", .endTag "p", .text "\n"], ?_, ?_, ?_⟩
    · dsimp only
      rw [serializeToHtml_inline_run t "strikethrough" hne hnl horc hstrip
        (by decide)]
      rw [show chars "<p>" ++ (joinList (["strikethrough"].filterMap openTagFor) ++
          escapeHtml t ++
          joinList ((["strikethrough"].filterMap openTagFor).reverse.map closeFor)) ++
          chars "</p>" ++ chars "\n" =
          '<' :: (chars "p" ++ '>' :: ('<' :: (chars "s" ++ '>' :: (escapeHtml t ++
            ('<' :: '/' :: (chars "s" ++ '>' ::
              ('<' :: '/' :: (chars "p" ++ '>' :: chars "\n")))))))) from by
        simp only [List.append_assoc]
        rfl]
      rw [tokenize_nested_block (chars "p") (chars "s") t hne (by decide) (by decide)
        (by decide) (by decide)]
      rfl
    · rw [deserialize_nested_inline (fun _ => false) t hne "s" "strikethrough"
        (Or.inr (Or.inr (Or.inr ⟨rfl, rfl⟩)))]
    · intro n i
      rw [deserialize_nested_inline (fun _ => false) t hne "s" "strikethrough"
        (Or.inr (Or.inr (Or.inr ⟨rfl, rfl⟩)))]
  · have hnm : chars h ≠ [] := by
      fin_cases hmem <;> decide
    have hall : (chars h).all isNameChar = true := by
      fin_cases hmem <;> decide
    refine ⟨[.startTag h [], .text (String.mk t), .endTag h, .text "\n"],
      ?_, ?_, ?_⟩
    · dsimp only
      rw [serializeToHtml_heading_run t h hne hnl horc hstrip hmem]
      rw [show chars ("<" ++ h ++ ">") ++ escapeHtml t ++
          chars ("</" ++ h ++ ">") ++ chars "\n" =
          '<' :: (chars h ++ '>' :: (escapeHtml t ++
            ('<' :: '/' :: (chars h ++ '>' :: chars "\n")))) from by
        rw [hchars_app ("<" ++ h) ">", hchars_app "<" h,
          hchars_app ("</" ++ h) ">", hchars_app "</" h]
        simp only [List.append_assoc]
        rfl]
      rw [tokenize_simple_block (chars h) t hne hnm hall]
      rfl
    · rw [deserialize_simple_h (fun _ => false) t hne h hmem]
    · intro n i
      rw [deserialize_simple_h (fun _ => false) t hne h hmem]

/-- Witness for the amended C1 at the bold run "hi": the serialized
paragraph tokenizes and deserializes back to the same text and
coverage. -/
theorem c1_round_trip_witness :
    ∃ toks, tokenize (serializeToHtml
        { text := chars "hi", tags := [("bold", 0, (chars "hi").length)],
          cursor := 0 } []) = some toks ∧
      (deserializeHtml (fun _ => false) toks).buf.text = chars "hi" ∧
      ∀ (n : String) (i : Nat),
        (deserializeHtml (fun _ => false) toks).buf.covers n i =
          Buffer.covers
            { text := chars "hi", tags := [("bold", 0, (chars "hi").length)],
              cursor := 0 } n i :=
  c1_round_trip (chars "hi") (some "bold") (by decide) (by decide) (by decide)
    (by decide) (Or.inr (Or.inl rfl))

/-- The two kinds of variable output the line serializer emits: an img
element for an anchored image, or one maximal equal-tag text segment. -/
inductive OutPiece where
  | img (path : String) (w : Int)
  | seg (T : List String) (stripped : List Char)

/-- The markup serialize_line_content emits for one piece: the img
element escapes its src path, a segment is its open tags, the escaped
stripped text, and the closing tags. -/
def renderPiece : OutPiece → List Char
  | .img p w =>
    chars "<img src=\"" ++ escapeHtml (chars p) ++ chars "\" width=\"" ++
      chars (toString w) ++ chars "\" alt=\"image\"/>"
  | .seg T stripped =>
    joinList (T.filterMap openTagFor) ++ escapeHtml stripped ++
      joinList ((T.filterMap openTagFor).reverse.map closeFor)

/-- The fixed markup constants serialize_to_html writes around the line
contents; none carries buffer text or attribute data. -/
def serMarkupConsts : List (List Char) :=
  [[], chars "</ul>\n", chars "</ol>\n", chars "<ul>\n", chars "<ol>\n",
   chars "<li>", chars "</li>", chars "<p>", chars "</p>",
   chars "<h1>", chars "</h1>", chars "<h2>", chars "</h2>",
   chars "<h3>", chars "</h3>", chars "<h4>", chars "</h4>", chars "\n"]

/-- Every part is a fixed markup constant or a rendered piece. -/
def partsOk (parts : List (List Char)) : Prop :=
  ∀ p ∈ parts, p ∈ serMarkupConsts ∨ ∃ pc : OutPiece, p = renderPiece pc

theorem joinList_cons (x : List Char) (l : List (List Char)) :
    joinList (x :: l) = x ++ joinList l := rfl

theorem joinList_append (l1 l2 : List (List Char)) :
    joinList (l1 ++ l2) = joinList l1 ++ joinList l2 := by
  induction l1 with
  | nil => rfl
  | cons x xs ih =>
    rw [List.cons_append, joinList_cons, joinList_cons, ih, List.append_assoc]

theorem serLineGo_decomp (b : Buffer) (im : List (Nat × String × Int)) (e : Nat) :
    ∀ fuel i, ∃ ps : List OutPiece,
      serLineGo b im e fuel i = joinList (ps.map renderPiece) := by
  intro fuel
  induction fuel with
  | zero =>
    intro i
    exact ⟨[], rfl⟩
  | succ f ih =>
    intro i
    simp only [serLineGo]
    by_cases hi : i < e
    · rw [if_pos hi]
      by_cases horc : charAt b.text i = ORC
      · rw [if_pos horc]
        rcases ih (i + 1) with ⟨ps2, hps2⟩
        cases hl : lookupIm im i with
        | some pw =>
          refine ⟨.img pw.1 pw.2 :: ps2, ?_⟩
          rw [hps2, List.map_cons, joinList_cons]
          rfl
        | none =>
          refine ⟨ps2, ?_⟩
          dsimp only
          rw [List.nil_append, hps2]
      · rw [if_neg horc]
        rcases ih (segEndGo b e (inlineTagNamesAt b i) (e - i) i) with ⟨ps2, hps2⟩
        by_cases hstr : stripListMark (sliceText b.text i
            (if segEndGo b e (inlineTagNamesAt b i) (e - i) i > e then e
             else segEndGo b e (inlineTagNamesAt b i) (e - i) i)) = []
        · refine ⟨ps2, ?_⟩
          rw [if_pos hstr, List.nil_append, hps2]
        · refine ⟨.seg (inlineTagNamesAt b i) (stripListMark (sliceText b.text i
            (if segEndGo b e (inlineTagNamesAt b i) (e - i) i > e then e
             else segEndGo b e (inlineTagNamesAt b i) (e - i) i))) :: ps2, ?_⟩
          rw [if_neg hstr, hps2, List.map_cons, joinList_cons]
          rfl
    · rw [if_neg hi]
      exact ⟨[], rfl⟩

theorem serTransition_parts (inL cur : Option String) :
    ∃ x y, serTransition inL cur = x ++ y ∧
      x ∈ serMarkupConsts ∧ y ∈ serMarkupConsts := by
  unfold serTransition
  by_cases h : inL = cur
  · refine ⟨[], [], ?_, ?_, ?_⟩
    · rw [if_pos h]
      rfl
    · simp [serMarkupConsts]
    · simp [serMarkupConsts]
  · rw [if_neg h]
    refine ⟨_, _, rfl, ?_, ?_⟩
    · cases inL with
      | none => simp [serMarkupConsts]
      | some p =>
        dsimp only
        split_ifs <;> simp [serMarkupConsts]
    · cases cur with
      | none => simp [serMarkupConsts]
      | some c =>
        dsimp only
        split_ifs <;> simp [serMarkupConsts]

theorem serLine_parts (b : Buffer) (im : List (Nat × String × Int)) (n idx : Nat)
    (inL : Option String) :
    ∃ parts, (serLine b im n idx inL).1 = joinList parts ∧ partsOk parts := by
  unfold serLine
  cases hls : lineStartOff b.text idx with
  | none =>
    refine ⟨[], rfl, ?_⟩
    intro p hp
    cases hp
  | some ls =>
    dsimp only
    by_cases hskip : (idx = n - 1 ∧ ls = lineEndOff b.text ls ∧ ls = b.text.length)
    · rw [if_pos hskip]
      refine ⟨[], rfl, ?_⟩
      intro p hp
      cases hp
    · rw [if_neg hskip]
      dsimp only
      have hopen : (match determineBlockTag b ls (lineEndOff b.text ls) with
          | some t =>
            if t = "bullet-list" ∨ t = "numbered-list" then chars "<li>"
            else if t ∈ headingNames then chars ("<" ++ t ++ ">")
            else chars "<p>"
          | none => chars "<p>") ∈ serMarkupConsts := by
        cases hdet : determineBlockTag b ls (lineEndOff b.text ls) with
        | none => decide
        | some t =>
          have ht : t ∈ blockTagNames := by
            unfold determineBlockTag at hdet
            exact List.mem_of_find?_eq_some hdet
          dsimp only
          fin_cases ht <;> decide
      have hclose : (match determineBlockTag b ls (lineEndOff b.text ls) with
          | some t =>
            if t = "bullet-list" ∨ t = "numbered-list" then chars "</li>"
            else if t ∈ headingNames then chars ("</" ++ t ++ ">")
            else chars "</p>"
          | none => chars "</p>") ∈ serMarkupConsts := by
        cases hdet : determineBlockTag b ls (lineEndOff b.text ls) with
        | none => decide
        | some t =>
          have ht : t ∈ blockTagNames := by
            unfold determineBlockTag at hdet
            exact List.mem_of_find?_eq_some hdet
          dsimp only
          fin_cases ht <;> decide
      generalize hcur : (match determineBlockTag b ls (lineEndOff b.text ls) with
          | some t =>
            if t = "bullet-list" then some "bullet-list"
            else if t = "numbered-list" then some "numbered-list"
            else none
          | none => none) = cur
      generalize hOS : (match determineBlockTag b ls (lineEndOff b.text ls) with
          | some t =>
            if t = "bullet-list" ∨ t = "numbered-list" then chars "<li>"
            else if t ∈ headingNames then chars ("<" ++ t ++ ">")
            else chars "<p>"
          | none => chars "<p>") = openS
      generalize hCS : (match determineBlockTag b ls (lineEndOff b.text ls) with
          | some t =>
            if t = "bullet-list" ∨ t = "numbered-list" then chars "</li>"
            else if t ∈ headingNames then chars ("</" ++ t ++ ">")
            else chars "</p>"
          | none => chars "</p>") = closeS
      rw [hOS] at hopen
      rw [hCS] at hclose
      obtain ⟨x, y, hxy, hx, hy⟩ := serTransition_parts inL cur
      obtain ⟨ps, hps⟩ := serLineGo_decomp b im (lineEndOff b.text ls)
        (lineEndOff b.text ls + 1 - ls) ls
      refine ⟨x :: y :: openS :: (ps.map renderPiece ++ [closeS, chars "\n"]),
        ?_, ?_⟩
      · rw [hxy]
        unfold serializeLineContent
        rw [hps]
        rw [joinList_cons, joinList_cons, joinList_cons, joinList_append,
          joinList_cons, joinList_cons]
        rw [show joinList [] = ([] : List Char) from rfl, List.append_nil]
        simp only [List.append_assoc]
        rfl
      · intro p hp
        simp only [List.mem_cons, List.mem_append, List.mem_map] at hp
        rcases hp with rfl | rfl | rfl | ⟨pc, -, rfl⟩ | rfl | rfl | hfalse
        · exact Or.inl hx
        · exact Or.inl hy
        · exact Or.inl hopen
        · exact Or.inr ⟨pc, rfl⟩
        · exact Or.inl hclose
        · exact Or.inl (by decide)
        · cases hfalse

theorem serFold_parts (b : Buffer) (im : List (Nat × String × Int)) (n : Nat) :
    ∀ (idxs : List Nat) (acc : List Char) (inL : Option String),
      ∃ parts,
        (idxs.foldl
          (fun acc2 idx =>
            let p := serLine b im n idx acc2.2
            (acc2.1 ++ p.1, p.2)) (acc, inL)).1 = acc ++ joinList parts ∧
        partsOk parts := by
  intro idxs
  induction idxs with
  | nil =>
    intro acc inL
    refine ⟨[], ?_, ?_⟩
    · rw [List.foldl_nil]
      rw [show joinList [] = ([] : List Char) from rfl, List.append_nil]
    · intro p hp
      cases hp
  | cons idx rest ih =>
    intro acc inL
    obtain ⟨lparts, hl, hlok⟩ := serLine_parts b im n idx inL
    obtain ⟨rparts, hr, hrok⟩ :=
      ih (acc ++ (serLine b im n idx inL).1) ((serLine b im n idx inL).2)
    refine ⟨lparts ++ rparts, ?_, ?_⟩
    · rw [List.foldl_cons]
      dsimp only
      rw [hr, hl, joinList_append, List.append_assoc]
    · intro p hp
      rcases List.mem_append.mp hp with h | h
      · exact hlok p h
      · exact hrok p h

theorem serializeToHtml_parts (b : Buffer) (im : List (Nat × String × Int)) :
    ∃ parts, serializeToHtml b im = joinList parts ∧ partsOk parts := by
  unfold serializeToHtml
  obtain ⟨parts, hp, hok⟩ :=
    serFold_parts b im (lineCount b.text) (List.range (lineCount b.text)) [] none
  have hfin : (match ((List.range (lineCount b.text)).foldl
      (fun acc2 idx =>
        let p := serLine b im (lineCount b.text) idx acc2.2
        (acc2.1 ++ p.1, p.2)) ([], none)).2 with
      | some p =>
        if p = "bullet-list" then chars "</ul>\n"
        else if p = "numbered-list" then chars "</ol>\n"
        else []
      | none => ([] : List Char)) ∈ serMarkupConsts := by
    cases ((List.range (lineCount b.text)).foldl
      (fun acc2 idx =>
        let p := serLine b im (lineCount b.text) idx acc2.2
        (acc2.1 ++ p.1, p.2)) ([], none)).2 with
    | none => decide
    | some q =>
      dsimp only
      split_ifs <;> simp [serMarkupConsts]
  dsimp only
  generalize hM : (match ((List.range (lineCount b.text)).foldl
      (fun acc2 idx =>
        let p := serLine b im (lineCount b.text) idx acc2.2
        (acc2.1 ++ p.1, p.2)) ([], none)).2 with
      | some p =>
        if p = "bullet-list" then chars "</ul>\n"
        else if p = "numbered-list" then chars "</ol>\n"
        else []
      | none => ([] : List Char)) = finalC
  rw [hM] at hfin
  refine ⟨parts ++ [finalC], ?_, ?_⟩
  · rw [hp, joinList_append, joinList_cons]
    rw [show joinList [] = ([] : List Char) from rfl, List.append_nil,
      List.nil_append]
  · intro p hpm
    rcases List.mem_append.mp hpm with h | h
    · exact hok p h
    · rw [List.mem_singleton] at h
      subst h
      exact Or.inl hfin

/-- Counterexample to claim C10's universal escaping: span style color
values are interpolated into the style attribute without escape_html (the
source formats the color straight into the open tag), so a fg:: tag whose
name carries a quote - reachable, since parse_style_color copies the
trimmed style value of loaded HTML verbatim into the tag name - puts an
unescaped quote in an attribute position even though the buffer text's
own specials are escaped; the corrupted attribute breaks retokenization,
while the same buffer with a clean color tokenizes fine. -/
theorem c10_counterexample :
    serializeToHtml
      { text := chars "x<y", tags := [("fg::#f00\" q", 0, 3)], cursor := 0 } [] =
      chars "<p><span style=\"color:#f00\" q\">x&lt;y</span></p>\n" ∧
    (tokenize (chars "<p><span style=\"color:#f00\" q\">x&lt;y</span></p>\n")).isNone
      = true ∧
    (tokenize (serializeToHtml
      { text := chars "x<y", tags := [("fg::#f00", 0, 3)], cursor := 0 } [])).isSome
      = true :=
  ⟨by decide, by decide, by decide⟩

/-- Amended claim C10: the escape passes leave no raw markup-special
character (no less-than, greater-than or quote at all and every
ampersand starting one of the four entities); at serializer level, for
EVERY buffer, image map and line range the emitted line content is a
concatenation of rendered pieces - img elements whose src passes
through escape_html and text segments emitted as open tags, escape_html
of the stripped segment text, and closing tags (openTagFor routes link
and tangle attribute values through escape_html as well) - and the whole
serialized document is a concatenation of fixed markup constants and
such pieces, so buffer text and the enumerated attribute values reach
the output only escaped; a plain one-line buffer's serialization is
exactly the paragraph wrapper around its escaped text.  Span style
colors are the exception recorded by the counterexample. -/
theorem c10_serializer_escapes :
    (∀ (t : List Char), ∀ c ∈ escapeHtml t, ¬(c = '<' ∨ c = '>' ∨ c = quoteChar)) ∧
    (∀ (t : List Char) (i : Nat), (escapeHtml t)[i]? = some '&' →
      ((chars "&amp;").isPrefixOf ((escapeHtml t).drop i) = true ∨
       (chars "&lt;").isPrefixOf ((escapeHtml t).drop i) = true ∨
       (chars "&gt;").isPrefixOf ((escapeHtml t).drop i) = true ∨
       (chars "&quot;").isPrefixOf ((escapeHtml t).drop i) = true)) ∧
    (∀ (b : Buffer) (im : List (Nat × String × Int)) (s e : Nat),
      ∃ ps : List OutPiece,
        serializeLineContent b im s e = joinList (ps.map renderPiece)) ∧
    (∀ (b : Buffer) (im : List (Nat × String × Int)),
      ∃ parts, serializeToHtml b im = joinList parts ∧ partsOk parts) ∧
    (∀ (t : List Char), t ≠ [] → t.all (fun c => c != '\n') = true → ORC ∉ t →
      stripListMark t ≠ [] →
      serializeToHtml { text := t, tags := [], cursor := 0 } [] =
        chars "<p>" ++ escapeHtml (stripListMark t) ++ chars "</p>\n") :=
  ⟨escapeHtml_no_raw, escapeHtml_amp_entity,
   fun b im s e => serLineGo_decomp b im e (e + 1 - s) s,
   serializeToHtml_parts, serializeToHtml_plain_line⟩

/-- Witness for C10: the ampersand in the escape of a<b starts an
entity, and the buffer x&y serializes to its escaped paragraph. -/
theorem c10_serializer_escapes_witness :
    ((chars "&amp;").isPrefixOf ((escapeHtml (chars "a<b")).drop 1) = true ∨
     (chars "&lt;").isPrefixOf ((escapeHtml (chars "a<b")).drop 1) = true ∨
     (chars "&gt;").isPrefixOf ((escapeHtml (chars "a<b")).drop 1) = true ∨
     (chars "&quot;").isPrefixOf ((escapeHtml (chars "a<b")).drop 1) = true) ∧
    serializeToHtml { text := chars "x&y", tags := [], cursor := 0 } [] =
      chars "<p>" ++ escapeHtml (stripListMark (chars "x&y")) ++ chars "</p>\n" :=
  ⟨c10_serializer_escapes.2.1 (chars "a<b") 1 (by decide),
   c10_serializer_escapes.2.2.2.2 (chars "x&y") (by decide) (by decide) (by decide)
     (by decide)⟩
